import Mathlib

/-!
Karmem runtime buffers (golang/karmem.go)

A shallow embedding of the `Writer` (bump allocator over a byte slice, growable
or fixed) and the `Reader` (bounds predicate over a byte slice) of
`golang/karmem.go`, and theorems about them.

Modelling conventions

* A Go `[]byte` is a `Slice`: the backing array seen from the slice's first
  element up to its capacity (`arr`, so `cap = arr.length`) and the length `len`.
* `uint` is a natural number below `2 ^ bits`, `int` one up to `maxInt`; the
  word size is 32 or 64 bits (the package's `init` refuses anything else).
  Arithmetic on `uint` is written with an explicit `% 2 ^ bits`.
* A run-time panic of Go is the result `none`.
* An `error` is `Option Error`, `none` being `nil`.
* The capacity `append` picks when it reallocates, and the largest allocation
  the runtime accepts, belong to the Go runtime, not to this package; they are
  the parameters `Platform.growCap` and `Platform.maxAlloc`. `make` and `append`
  panic beyond `maxAlloc`. Running out of memory below that limit is not
  modelled.
-/

namespace Karmem

/-! ## Machine words -/

/-- The native word sizes accepted by the package's `init`. -/
inductive WordSize where
  | w32
  | w64
deriving DecidableEq, Repr

/-- Number of bits of `int` and `uint`. -/
def WordSize.bits : WordSize → Nat
  | .w32 => 32
  | .w64 => 64

/-- Number of values of `uint`: arithmetic on `uint` is modulo this. -/
def uintMod (ws : WordSize) : Nat := 2 ^ ws.bits

/-- Largest value of `int`, the type of `len` and `cap`. -/
def maxInt (ws : WordSize) : Nat := 2 ^ (ws.bits - 1) - 1

/-- Addition of two `uint` values. -/
def uadd (ws : WordSize) (a b : Nat) : Nat := (a + b) % uintMod ws

/-- Subtraction of two `uint` values. -/
def usub (ws : WordSize) (a b : Nat) : Nat := (a + uintMod ws - b % uintMod ws) % uintMod ws

/-- Conversion of an `int` that is not negative to `uint`. -/
def toUint (ws : WordSize) (a : Nat) : Nat := a % uintMod ws

/-- The runtime's allocation limit (`maxAlloc`) of the Go runtime on the usual
platforms: `2^48` bytes on 64 bits (amd64), `2^32 - 1` on 32 bits. -/
def defaultMaxAlloc : WordSize → Nat
  | .w32 => 2 ^ 32 - 1
  | .w64 => 2 ^ 48

/-- The platform: the word size; the runtime's allocation limit `maxAlloc`, in
bytes, beyond which `make` and `append` panic; and the capacity
`growCap oldCap needed` that `append` picks for the new backing array when
`needed` elements do not fit in `oldCap`. That capacity is large enough for the
elements, and it is an `int`. -/
structure Platform where
  word : WordSize
  maxAlloc : Nat
  growCap : Nat → Nat → Nat
  growCap_ge : ∀ c n, n ≤ growCap c n
  growCap_le : ∀ c n, n ≤ maxInt word → growCap c n ≤ maxInt word

/-- A platform whose `append` allocates exactly what is needed. -/
def exactFit (ws : WordSize) : Platform where
  word := ws
  maxAlloc := defaultMaxAlloc ws
  growCap := fun _ n => n
  growCap_ge := fun _ _ => Nat.le_refl _
  growCap_le := fun _ _ h => h

/-- A platform whose `append` doubles the capacity when that is enough and
still an `int`, and allocates exactly what is needed otherwise. -/
def doubling (ws : WordSize) : Platform where
  word := ws
  maxAlloc := defaultMaxAlloc ws
  growCap := fun c n => if n ≤ 2 * c ∧ 2 * c ≤ maxInt ws then 2 * c else n
  growCap_ge := by
    intro c n
    by_cases h : n ≤ 2 * c ∧ 2 * c ≤ maxInt ws
    · simp only [h, and_self, if_true]
    · simp only [h, if_false, Nat.le_refl]
  growCap_le := by
    intro c n hn
    by_cases h : n ≤ 2 * c ∧ 2 * c ≤ maxInt ws
    · simp only [h, and_self, if_true]
    · simp only [h, if_false, hn]

/-! ## Byte slices -/

/-- A Go `[]byte`: `arr` is the backing array from the slice's first element to
its capacity, `len` the length of the slice. -/
structure Slice where
  arr : List UInt8
  len : Nat
deriving DecidableEq, Repr

namespace Slice

/-- Go's `cap(s)`. -/
def cap (s : Slice) : Nat := s.arr.length

/-- The elements of the slice, `s[0], ..., s[len(s)-1]`. -/
def toList (s : Slice) : List UInt8 := s.arr.take s.len

/-- The slices Go can hold: the length is within the capacity, and the capacity
is an `int`. -/
def WF (ws : WordSize) (s : Slice) : Prop := s.len ≤ s.cap ∧ s.cap ≤ maxInt ws

instance (ws : WordSize) (s : Slice) : Decidable (s.WF ws) := by
  unfold WF; exact inferInstance

/-- The `nil` slice. -/
def nil : Slice := ⟨[], 0⟩

/-- Go's `make([]byte, len, cap)`: a zeroed array; panics when the sizes are out
of range: `len > cap`, a capacity that is not an `int`, or more bytes than the
runtime's allocation limit. -/
def make (P : Platform) (len cap : Nat) : Option Slice :=
  if len ≤ cap ∧ cap ≤ maxInt P.word ∧ cap ≤ P.maxAlloc then
    some ⟨List.replicate cap 0, len⟩
  else none

/-- Go's `s[:high]`: panics unless `high ≤ cap(s)`. -/
def upTo (s : Slice) (high : Nat) : Option Slice :=
  if high ≤ s.cap then some ⟨s.arr, high⟩ else none

/-- Go's `s[low:]`: panics unless `low ≤ len(s)`. -/
def dropFront (s : Slice) (low : Nat) : Option Slice :=
  if low ≤ s.len then some ⟨s.arr.drop low, s.len - low⟩ else none

/-- Go's `append(s, xs...)`. Within the capacity the elements are stored in
place; otherwise a new zeroed array of capacity `growCap` receives the old
elements and `xs`. Panics when the new length is not an `int`, or when the new
array is beyond the runtime's allocation limit. -/
def append (P : Platform) (s : Slice) (xs : List UInt8) : Option Slice :=
  let newLen := s.len + xs.length
  if newLen > maxInt P.word then none
  else if newLen ≤ s.cap then
    some ⟨s.arr.take s.len ++ xs ++ s.arr.drop newLen, newLen⟩
  else if P.growCap s.cap newLen > P.maxAlloc then none
  else
    some ⟨s.toList ++ xs ++ List.replicate (P.growCap s.cap newLen - newLen) 0, newLen⟩

end Slice

/-- The backing array after Go's `copy(dst, src)`, where `dst` is the part of
the array `arr` that starts at index `start` and has length `dstLen`:
`min dstLen (len src)` elements are copied. -/
def copyInto (arr : List UInt8) (start dstLen : Nat) (src : List UInt8) : List UInt8 :=
  let k := min dstLen src.length
  arr.take start ++ src.take k ++ arr.drop (start + k)

/-! ## Writer -/

/-- The package's only error value. -/
inductive Error where
  | ErrOutOfMemory
deriving DecidableEq, Repr

/-- The `Writer` struct. -/
structure Writer where
  Memory : Slice
  isFixed : Bool
deriving DecidableEq, Repr

/-- The writers Go can hold. -/
def Writer.WF (ws : WordSize) (w : Writer) : Prop := w.Memory.WF ws

instance (ws : WordSize) (w : Writer) : Decidable (w.WF ws) := by
  unfold Writer.WF; exact inferInstance

/-- `NewWriter(capacity)`: `make([]byte, 0, capacity)`, not fixed. -/
def NewWriter (P : Platform) (capacity : Int) : Option Writer :=
  if capacity < 0 then none
  else (Slice.make P 0 capacity.toNat).map fun m => { Memory := m, isFixed := false }

/-- `NewFixedWriter(mem)`. -/
def NewFixedWriter (mem : Slice) : Writer := { Memory := mem, isFixed := true }

/-- `Writer.Alloc(n)`: the returned offset and error, and the writer afterwards. -/
def Alloc (P : Platform) (w : Writer) (n : Nat) : Option ((Nat × Option Error) × Writer) :=
  let ptr := toUint P.word w.Memory.len
  let total := uadd P.word ptr n
  if total > toUint P.word w.Memory.cap then
    if w.isFixed then
      some ((0, some Error.ErrOutOfMemory), w)
    else
      match Slice.make P (usub P.word total (toUint P.word w.Memory.len))
              (usub P.word total (toUint P.word w.Memory.len)) with
      | none => none
      | some zeros =>
        match Slice.append P w.Memory zeros.toList with
        | none => none
        | some m => some ((ptr, none), { w with Memory := m })
  else
    match w.Memory.upTo total with
    | none => none
    | some m => some ((ptr, none), { w with Memory := m })

/-- `Writer.WriteAt(offset, data)`: `copy(w.Memory[offset:], data)`. The slice
`w.Memory[offset:]` shares the array of `w.Memory`, so the copy lands in it. -/
def WriteAt (w : Writer) (offset : Nat) (data : List UInt8) : Option Writer :=
  match w.Memory.dropFront offset with
  | none => none
  | some dst =>
    some { w with Memory := ⟨copyInto w.Memory.arr offset dst.len data, w.Memory.len⟩ }

/-- How a call ends: it returns, and `ok` holds the writer afterwards; or it
panics, and `panic` holds the writer as the call left it when the panic rose. -/
inductive Outcome where
  | ok (w : Writer)
  | panic (w : Writer)
deriving DecidableEq, Repr

/-- `Writer.WriteAt(offset, data)` with the writer it leaves behind when it
panics. The argument `w.Memory[offset:]` is evaluated before `copy` is called,
and evaluating it only reads the writer: when it panics, `copy` has not run. -/
def WriteAtOutcome (w : Writer) (offset : Nat) (data : List UInt8) : Outcome :=
  match w.Memory.dropFront offset with
  | none => Outcome.panic w
  | some dst =>
    Outcome.ok { w with Memory := ⟨copyInto w.Memory.arr offset dst.len data, w.Memory.len⟩ }

/-- `Writer.Reset()`. -/
def Reset (w : Writer) : Option Writer :=
  if w.Memory.len = 0 then some w
  else
    match w.Memory.upTo 0 with
    | none => none
    | some m => some { w with Memory := m }

/-- `Writer.Bytes()`: the returned slice, and the writer afterwards. -/
def Bytes (w : Writer) : Slice × Writer := (w.Memory, w)

/-! ## Reader -/

/-- The `Reader` struct. `Pointer` is `none` for the nil pointer; addresses are
natural numbers. -/
structure Reader where
  Memory : Slice
  Pointer : Option Nat
  Size : Nat
  Min : Nat
  Max : Nat
deriving DecidableEq, Repr

/-- `NewReader(mem)`. `addr` is the address of `mem[0]`, which the program
reads off the slice when the slice is not empty. -/
def NewReader (addr : Nat) (mem : Slice) : Reader :=
  if mem.len = 0 then
    { Memory := Slice.nil, Pointer := none, Size := 0, Min := 0, Max := 0 }
  else
    { Memory := mem
      Size := mem.len % 2 ^ 64
      Pointer := some addr
      Min := addr
      Max := addr + (mem.len - 1) }

/-- `Reader.IsValidOffset(ptr, size)`, for `ptr` and `size` of type `uint32`;
the sum is a `uint64` sum. -/
def IsValidOffset (m : Reader) (ptr size : Nat) : Bool :=
  decide (m.Size ≥ (ptr % 2 ^ 64 + size % 2 ^ 64) % 2 ^ 64)

/-! ## Call sequences -/

/-- A run of `Alloc` calls with the sizes `ns`, one after the other: what each
call returned, and the writer at the end; `none` when a call panics. -/
def allocSeq (P : Platform) : Writer → List Nat → Option (List (Nat × Option Error) × Writer)
  | w, [] => some ([], w)
  | w, n :: ns =>
    match Alloc P w n with
    | none => none
    | some (r, w1) =>
      match allocSeq P w1 ns with
      | none => none
      | some (rs, w2) => some (r :: rs, w2)

/-- A call of one of the writer's methods. -/
inductive Op where
  | alloc (n : Nat)
  | writeAt (offset : Nat) (data : List UInt8)
  | reset
  | bytes
deriving DecidableEq, Repr

/-- What a call returned. -/
inductive Ret where
  | alloc (offset : Nat) (err : Option Error)
  | writeAt
  | reset
  | bytes (b : Slice)
deriving DecidableEq, Repr

/-- One call: what it returned and the writer afterwards; `none` when it panics. -/
def step (P : Platform) (w : Writer) : Op → Option (Ret × Writer)
  | .alloc n => (Alloc P w n).map fun r => (Ret.alloc r.1.1 r.1.2, r.2)
  | .writeAt offset data => (WriteAt w offset data).map fun w1 => (Ret.writeAt, w1)
  | .reset => (Reset w).map fun w1 => (Ret.reset, w1)
  | .bytes => some (Ret.bytes (Bytes w).1, (Bytes w).2)

/-- A sequence of calls: each call with what it returned, and the writer at the
end; `none` when a call panics. -/
def run (P : Platform) : Writer → List Op → Option (List (Op × Ret) × Writer)
  | w, [] => some ([], w)
  | w, op :: ops =>
    match step P w op with
    | none => none
    | some (r, w1) =>
      match run P w1 ops with
      | none => none
      | some (tr, w2) => some ((op, r) :: tr, w2)

/-- Sum of the sizes of the `Alloc` calls of a trace that returned a nil error. -/
def allocated : List (Op × Ret) → Nat
  | [] => 0
  | (Op.alloc n, Ret.alloc _ none) :: tr => n + allocated tr
  | _ :: tr => allocated tr

/-! ## Words -/

theorem uintMod_pos (ws : WordSize) : 0 < uintMod ws := by
  unfold uintMod; exact Nat.pos_pow_of_pos _ (by decide)

theorem maxInt_lt_uintMod (ws : WordSize) : maxInt ws < uintMod ws := by
  cases ws <;> decide

theorem maxInt_succ_lt_uintMod (ws : WordSize) : maxInt ws + 1 < uintMod ws := by
  cases ws <;> decide

theorem toUint_of_le_maxInt {ws : WordSize} {a : Nat} (h : a ≤ maxInt ws) : toUint ws a = a :=
  Nat.mod_eq_of_lt (Nat.lt_of_le_of_lt h (maxInt_lt_uintMod ws))

theorem uadd_of_lt {ws : WordSize} {a b : Nat} (h : a + b < uintMod ws) : uadd ws a b = a + b :=
  Nat.mod_eq_of_lt h

theorem uadd_of_wrap {ws : WordSize} {a b : Nat} (ha : a < uintMod ws) (hb : b < uintMod ws)
    (h : uintMod ws ≤ a + b) : uadd ws a b = a + b - uintMod ws := by
  unfold uadd
  rw [Nat.mod_eq_sub_mod h]
  exact Nat.mod_eq_of_lt (by omega)

theorem usub_add_left {ws : WordSize} {a b : Nat} (ha : a < uintMod ws) (hb : b < uintMod ws) :
    usub ws (a + b) a = b := by
  unfold usub
  rw [Nat.mod_eq_of_lt ha]
  have h : a + b + uintMod ws - a = b + uintMod ws := by omega
  rw [h, Nat.add_mod_right]
  exact Nat.mod_eq_of_lt hb

/-! ## What `Alloc` does, case by case -/

theorem Writer.len_le_maxInt {ws : WordSize} {w : Writer} (hw : w.WF ws) :
    w.Memory.len ≤ maxInt ws := Nat.le_trans hw.1 hw.2

/-- The request fits in the capacity: the slice is extended in place. -/
theorem Alloc_fits (P : Platform) (w : Writer) (n : Nat) (hw : w.WF P.word)
    (h : w.Memory.len + n ≤ w.Memory.cap) :
    Alloc P w n = some ((w.Memory.len, none),
      { w with Memory := ⟨w.Memory.arr, w.Memory.len + n⟩ }) := by
  have hM := maxInt_lt_uintMod P.word
  have hcap : w.Memory.cap ≤ maxInt P.word := hw.2
  have h1 : toUint P.word w.Memory.len = w.Memory.len :=
    toUint_of_le_maxInt (Writer.len_le_maxInt hw)
  have h2 : toUint P.word w.Memory.cap = w.Memory.cap := toUint_of_le_maxInt hw.2
  have h3 : uadd P.word w.Memory.len n = w.Memory.len + n := uadd_of_lt (by omega)
  simp only [Alloc, h1, h2, h3, Slice.upTo]
  rw [if_neg (by omega)]
  simp only [h, if_true]

/-- The sum wraps around the word: the slice is cut down to the wrapped sum. -/
theorem Alloc_wrap (P : Platform) (w : Writer) (n : Nat) (hw : w.WF P.word)
    (hn : n < uintMod P.word) (h : uintMod P.word ≤ w.Memory.len + n) :
    Alloc P w n = some ((w.Memory.len, none),
      { w with Memory := ⟨w.Memory.arr, w.Memory.len + n - uintMod P.word⟩ }) := by
  have hM := maxInt_lt_uintMod P.word
  have hlen : w.Memory.len ≤ w.Memory.cap := hw.1
  have hcap : w.Memory.cap ≤ maxInt P.word := hw.2
  have h1 : toUint P.word w.Memory.len = w.Memory.len :=
    toUint_of_le_maxInt (Writer.len_le_maxInt hw)
  have h2 : toUint P.word w.Memory.cap = w.Memory.cap := toUint_of_le_maxInt hw.2
  have h3 : uadd P.word w.Memory.len n = w.Memory.len + n - uintMod P.word :=
    uadd_of_wrap (by omega) hn h
  simp only [Alloc, h1, h2, h3, Slice.upTo]
  rw [if_neg (by omega)]
  rw [if_pos (by omega)]

/-- A fixed writer without room: the error, and nothing changes. -/
theorem Alloc_fixed_full (P : Platform) (w : Writer) (n : Nat) (hw : w.WF P.word)
    (hf : w.isFixed = true) (h : w.Memory.cap < w.Memory.len + n)
    (hlt : w.Memory.len + n < uintMod P.word) :
    Alloc P w n = some ((0, some Error.ErrOutOfMemory), w) := by
  have h1 : toUint P.word w.Memory.len = w.Memory.len :=
    toUint_of_le_maxInt (Writer.len_le_maxInt hw)
  have h2 : toUint P.word w.Memory.cap = w.Memory.cap := toUint_of_le_maxInt hw.2
  have h3 : uadd P.word w.Memory.len n = w.Memory.len + n := uadd_of_lt hlt
  simp only [Alloc, h1, h2, h3]
  rw [if_pos h, if_pos hf]

theorem make_self (P : Platform) (n : Nat) (h1 : n ≤ maxInt P.word) (h2 : n ≤ P.maxAlloc) :
    Slice.make P n n = some ⟨List.replicate n 0, n⟩ := by
  unfold Slice.make
  rw [if_pos ⟨Nat.le_refl _, h1, h2⟩]

theorem make_self_none (P : Platform) (n : Nat) (h : ¬ (n ≤ maxInt P.word ∧ n ≤ P.maxAlloc)) :
    Slice.make P n n = none := by
  unfold Slice.make
  rw [if_neg (fun hc => h hc.2)]

/-- The growing branch of `Alloc`, when the sum fits in the word: `make` of `n`
bytes, then `append`. -/
theorem Alloc_growing (P : Platform) (w : Writer) (n : Nat) (hw : w.WF P.word)
    (hf : w.isFixed = false) (h : w.Memory.cap < w.Memory.len + n)
    (hlt : w.Memory.len + n < uintMod P.word) :
    Alloc P w n =
      match Slice.make P n n with
      | none => none
      | some zeros =>
        match Slice.append P w.Memory zeros.toList with
        | none => none
        | some m => some ((w.Memory.len, none), { w with Memory := m }) := by
  have hM := maxInt_lt_uintMod P.word
  have hcap : w.Memory.cap ≤ maxInt P.word := hw.2
  have hlen : w.Memory.len ≤ w.Memory.cap := hw.1
  have h1 : toUint P.word w.Memory.len = w.Memory.len :=
    toUint_of_le_maxInt (Writer.len_le_maxInt hw)
  have h2 : toUint P.word w.Memory.cap = w.Memory.cap := toUint_of_le_maxInt hw.2
  have h3 : uadd P.word w.Memory.len n = w.Memory.len + n := uadd_of_lt hlt
  have h4 : usub P.word (w.Memory.len + n) w.Memory.len = n :=
    usub_add_left (by omega) (by omega)
  simp only [Alloc, h1, h2, h3, h4]
  rw [if_pos h]
  simp only [hf, Bool.false_eq_true, if_false]

/-- A growable writer without room: a new array with the old elements, `n`
zeroed bytes, and zeroed spare capacity. -/
theorem Alloc_grow (P : Platform) (w : Writer) (n : Nat) (hw : w.WF P.word)
    (hf : w.isFixed = false) (h : w.Memory.cap < w.Memory.len + n)
    (hle : w.Memory.len + n ≤ maxInt P.word)
    (hA : P.growCap w.Memory.cap (w.Memory.len + n) ≤ P.maxAlloc) :
    Alloc P w n = some ((w.Memory.len, none),
      { w with Memory := ⟨w.Memory.toList ++ List.replicate n 0 ++
          List.replicate (P.growCap w.Memory.cap (w.Memory.len + n) - (w.Memory.len + n)) 0,
          w.Memory.len + n⟩ }) := by
  have hM := maxInt_lt_uintMod P.word
  have hg := P.growCap_ge w.Memory.cap (w.Memory.len + n)
  rw [Alloc_growing P w n hw hf h (by omega), make_self P n (by omega) (by omega)]
  simp only [Slice.append, Slice.toList, List.take_replicate, Nat.min_self,
    List.length_replicate]
  rw [if_neg (by omega), if_neg (by omega), if_neg (by omega)]

/-- A growable writer asked for more than a slice can hold: `make` or `append`
panics. -/
theorem Alloc_grow_panic (P : Platform) (w : Writer) (n : Nat) (hw : w.WF P.word)
    (hf : w.isFixed = false) (h : maxInt P.word < w.Memory.len + n)
    (hlt : w.Memory.len + n < uintMod P.word) :
    Alloc P w n = none := by
  have hcap : w.Memory.cap ≤ maxInt P.word := hw.2
  rw [Alloc_growing P w n hw hf (by omega) hlt]
  by_cases h5 : n ≤ maxInt P.word ∧ n ≤ P.maxAlloc
  · rw [make_self P n h5.1 h5.2]
    simp only [Slice.append, Slice.toList, List.take_replicate, Nat.min_self,
      List.length_replicate]
    rw [if_pos (by omega)]
  · rw [make_self_none P n h5]

/-- A growable writer without room, when the array `append` would allocate is
beyond the runtime's allocation limit: `make` or `append` panics. -/
theorem Alloc_grow_limit (P : Platform) (w : Writer) (n : Nat) (hw : w.WF P.word)
    (hf : w.isFixed = false) (h : w.Memory.cap < w.Memory.len + n)
    (hle : w.Memory.len + n ≤ maxInt P.word)
    (hA : P.maxAlloc < P.growCap w.Memory.cap (w.Memory.len + n)) :
    Alloc P w n = none := by
  have hM := maxInt_lt_uintMod P.word
  rw [Alloc_growing P w n hw hf h (by omega)]
  by_cases h5 : n ≤ maxInt P.word ∧ n ≤ P.maxAlloc
  · rw [make_self P n h5.1 h5.2]
    simp only [Slice.append, Slice.toList, List.take_replicate, Nat.min_self,
      List.length_replicate]
    rw [if_neg (by omega), if_neg (by omega), if_pos hA]
  · rw [make_self_none P n h5]

/-- A growable writer without room, when the sum fits in the word: `Alloc`
either grows, and then the new length is an `int` and the new array is within
the runtime's allocation limit, or panics. -/
theorem Alloc_grow_cases (P : Platform) (w : Writer) (n : Nat) (hw : w.WF P.word)
    (hf : w.isFixed = false) (h : w.Memory.cap < w.Memory.len + n)
    (hlt : w.Memory.len + n < uintMod P.word) :
    (w.Memory.len + n ≤ maxInt P.word ∧
      P.growCap w.Memory.cap (w.Memory.len + n) ≤ P.maxAlloc ∧
      Alloc P w n = some ((w.Memory.len, none),
        { w with Memory := ⟨w.Memory.toList ++ List.replicate n 0 ++
            List.replicate (P.growCap w.Memory.cap (w.Memory.len + n) - (w.Memory.len + n)) 0,
            w.Memory.len + n⟩ })) ∨
    Alloc P w n = none := by
  by_cases hmax : w.Memory.len + n ≤ maxInt P.word
  · by_cases hA : P.growCap w.Memory.cap (w.Memory.len + n) ≤ P.maxAlloc
    · exact Or.inl ⟨hmax, hA, Alloc_grow P w n hw hf h hmax hA⟩
    · exact Or.inr (Alloc_grow_limit P w n hw hf h hmax (Nat.lt_of_not_le hA))
  · exact Or.inr (Alloc_grow_panic P w n hw hf (Nat.lt_of_not_le hmax) hlt)

/-- An `Alloc` whose sum fits in the word and that returned a nil error: the
offset is the old length, the length grew by `n`, the writer is still one Go can
hold, the mode is kept and the old elements are kept. -/
theorem Alloc_nil_of_lt (P : Platform) (w w1 : Writer) (n off : Nat) (hw : w.WF P.word)
    (hlt : w.Memory.len + n < uintMod P.word)
    (h : Alloc P w n = some ((off, none), w1)) :
    off = w.Memory.len ∧ w1.Memory.len = w.Memory.len + n ∧ w1.WF P.word ∧
      w1.isFixed = w.isFixed ∧ w1.Memory.toList.take w.Memory.len = w.Memory.toList := by
  have hlen : w.Memory.len ≤ w.Memory.cap := hw.1
  have hcap : w.Memory.cap ≤ maxInt P.word := hw.2
  by_cases hfit : w.Memory.len + n ≤ w.Memory.cap
  · rw [Alloc_fits P w n hw hfit] at h
    simp only [Option.some.injEq, Prod.mk.injEq, and_true] at h
    obtain ⟨h1, h2⟩ := h
    subst h2
    refine ⟨h1.symm, rfl, ⟨hfit, hcap⟩, rfl, ?_⟩
    simp only [Slice.toList, List.take_take]
    rw [Nat.min_eq_left (Nat.le_add_right _ _)]
  · have hfit2 : w.Memory.cap < w.Memory.len + n := Nat.lt_of_not_le hfit
    cases hf : w.isFixed with
    | true =>
      rw [Alloc_fixed_full P w n hw hf hfit2 hlt] at h
      simp at h
    | false =>
      rcases Alloc_grow_cases P w n hw hf hfit2 hlt with ⟨hmax, _, hgrow⟩ | hnone
      · rw [hgrow] at h
        simp only [Option.some.injEq, Prod.mk.injEq, and_true] at h
        obtain ⟨h1, h2⟩ := h
        subst h2
        have hg := P.growCap_ge w.Memory.cap (w.Memory.len + n)
        have hg2 := P.growCap_le w.Memory.cap (w.Memory.len + n) hmax
        simp only [Slice.cap] at hg hg2 hlen hfit2
        have htl : w.Memory.toList.length = w.Memory.len := by
          simp only [Slice.toList, List.length_take]
          exact Nat.min_eq_left hlen
        refine ⟨h1.symm, rfl, ⟨?_, ?_⟩, hf, ?_⟩
        · simp only [Slice.cap, List.length_append, List.length_replicate, htl]
          omega
        · simp only [Slice.cap, List.length_append, List.length_replicate, htl]
          omega
        · simp only [Slice.toList, List.append_assoc]
          rw [List.take_take, Nat.min_eq_left (Nat.le_add_right _ _)]
          rw [List.take_append_of_le_length (by rw [List.length_take]; omega)]
          rw [List.take_take, Nat.min_self]
      · rw [hnone] at h
        simp at h

/-- An `Alloc` that returned an error returned the offset 0 and `ErrOutOfMemory`,
on a fixed writer, and did not touch the writer. -/
theorem Alloc_err_unchanged (P : Platform) (w w1 : Writer) (n off : Nat) (e : Error)
    (h : Alloc P w n = some ((off, some e), w1)) :
    w1 = w ∧ off = 0 ∧ e = Error.ErrOutOfMemory ∧ w.isFixed = true := by
  unfold Alloc at h
  simp only at h
  split at h
  · split at h
    · rename_i hf
      simp only [Option.some.injEq, Prod.mk.injEq] at h
      obtain ⟨⟨h1, _⟩, h3⟩ := h
      cases e
      exact ⟨h3.symm, h1.symm, rfl, hf⟩
    · split at h
      · simp at h
      · split at h
        · simp at h
        · simp at h
  · split at h
    · simp at h
    · simp at h

/-- A growable writer never gets an error from `Alloc`. -/
theorem Alloc_growable_no_err (P : Platform) (w w1 : Writer) (n off : Nat) (e : Error)
    (hf : w.isFixed = false) : Alloc P w n ≠ some ((off, some e), w1) := by
  intro h
  have h4 := (Alloc_err_unchanged P w w1 n off e h).2.2.2
  rw [hf] at h4
  exact Bool.false_ne_true h4

/-- A fixed writer, when the sum fits in the word: the error exactly when the
sum exceeds the capacity. -/
theorem Alloc_fixed_of_lt (P : Platform) (w : Writer) (n : Nat) (hw : w.WF P.word)
    (hf : w.isFixed = true) (hlt : w.Memory.len + n < uintMod P.word) :
    (w.Memory.cap < w.Memory.len + n →
      Alloc P w n = some ((0, some Error.ErrOutOfMemory), w)) ∧
    (w.Memory.len + n ≤ w.Memory.cap →
      Alloc P w n = some ((w.Memory.len, none),
        { w with Memory := ⟨w.Memory.arr, w.Memory.len + n⟩ })) :=
  ⟨fun h => Alloc_fixed_full P w n hw hf h hlt, fun h => Alloc_fits P w n hw h⟩

/-! ## Fresh writers -/

theorem NewWriter_some (P : Platform) (c : Int) (w : Writer) (h : NewWriter P c = some w) :
    0 ≤ c ∧ w = { Memory := ⟨List.replicate c.toNat 0, 0⟩, isFixed := false } ∧
      w.WF P.word := by
  unfold NewWriter at h
  by_cases hc : c < 0
  · simp [hc] at h
  · rw [if_neg hc] at h
    unfold Slice.make at h
    by_cases hm : 0 ≤ c.toNat ∧ c.toNat ≤ maxInt P.word ∧ c.toNat ≤ P.maxAlloc
    · rw [if_pos hm] at h
      simp only [Option.map_some', Option.some.injEq] at h
      subst h
      refine ⟨Int.not_lt.mp hc, rfl, ?_⟩
      simp only [Writer.WF, Slice.WF, Slice.cap, List.length_replicate]
      exact ⟨hm.1, hm.2.1⟩
    · rw [if_neg hm] at h
      simp at h

theorem Reset_some (w : Writer) :
    Reset w = some { Memory := ⟨w.Memory.arr, 0⟩, isFixed := w.isFixed } := by
  unfold Reset
  by_cases h : w.Memory.len = 0
  · rw [if_pos h]
    obtain ⟨⟨arr, len⟩, f⟩ := w
    simp only at h
    subst h
    rfl
  · rw [if_neg h]
    simp only [Slice.upTo, Nat.zero_le, if_true]

/-- A writer just made by `NewWriter` or just reset is empty, and one Go can hold. -/
theorem fresh_empty (P : Platform) (w0 w : Writer) (c : Int)
    (h : NewWriter P c = some w ∨ (w0.WF P.word ∧ Reset w0 = some w)) :
    w.WF P.word ∧ w.Memory.len = 0 := by
  rcases h with h | ⟨hw0, h⟩
  · obtain ⟨_, h1, h2⟩ := NewWriter_some P c w h
    refine ⟨h2, ?_⟩
    rw [h1]
  · rw [Reset_some] at h
    simp only [Option.some.injEq] at h
    subst h
    exact ⟨⟨Nat.zero_le _, hw0.2⟩, rfl⟩

/-! ## Sequences of `Alloc` -/

theorem sum_take_le (ns : List Nat) (i j : Nat) (h : i ≤ j) :
    (ns.take i).sum ≤ (ns.take j).sum := by
  induction ns generalizing i j with
  | nil => simp
  | cons n t ih =>
    cases i with
    | zero => simp
    | succ i =>
      cases j with
      | zero => omega
      | succ j =>
        simp only [List.take_succ_cons, List.sum_cons]
        have := ih i j (by omega)
        omega

theorem sum_take_succ_getD (ns : List Nat) (i : Nat) (h : i < ns.length) :
    (ns.take (i + 1)).sum = (ns.take i).sum + ns.getD i 0 := by
  induction ns generalizing i with
  | nil => simp at h
  | cons n t ih =>
    cases i with
    | zero => simp
    | succ i =>
      simp only [List.length_cons, Nat.add_lt_add_iff_right] at h
      simp only [List.take_succ_cons, List.sum_cons, List.getD_cons_succ]
      rw [ih i h]
      omega

theorem sum_take_le_sum (ns : List Nat) (i : Nat) : (ns.take i).sum ≤ ns.sum := by
  have h := sum_take_le ns i ns.length
  by_cases hi : i ≤ ns.length
  · simpa using h hi
  · rw [List.take_of_length_le (by omega)]

/-- The offsets of a run of `Alloc` calls that all returned a nil error and
whose sizes, added to the starting length, fit in the word. -/
theorem allocSeq_offsets (P : Platform) (ns : List Nat) :
    ∀ (w w1 : Writer) (rs : List (Nat × Option Error)), w.WF P.word →
      w.Memory.len + ns.sum < uintMod P.word →
      allocSeq P w ns = some (rs, w1) → (∀ r ∈ rs, r.2 = none) →
      w1.Memory.len = w.Memory.len + ns.sum ∧
      ∀ i, i < ns.length → rs[i]? = some (w.Memory.len + (ns.take i).sum, none) := by
  induction ns with
  | nil =>
    intro w w1 rs _ _ h _
    simp only [allocSeq, Option.some.injEq, Prod.mk.injEq] at h
    obtain ⟨_, h2⟩ := h
    subst h2
    simp
  | cons n t ih =>
    intro w w1 rs hw hsum h hok
    simp only [List.sum_cons] at hsum
    simp only [allocSeq] at h
    cases ha : Alloc P w n with
    | none => simp [ha] at h
    | some p =>
      obtain ⟨⟨off, err⟩, w2⟩ := p
      simp only [ha] at h
      cases ht : allocSeq P w2 t with
      | none => simp [ht] at h
      | some q =>
        obtain ⟨rs2, w3⟩ := q
        simp only [ht, Option.some.injEq, Prod.mk.injEq] at h
        obtain ⟨h1, h2⟩ := h
        subst h1 h2
        have herr : err = none := hok (off, err) (List.mem_cons_self _ _)
        subst herr
        obtain ⟨hoff, hlen, hw2, _, _⟩ :=
          Alloc_nil_of_lt P w w2 n off hw (by omega) ha
        obtain ⟨hl3, hrest⟩ := ih w2 w3 rs2 hw2 (by rw [hlen]; omega) ht
          (fun r hr => hok r (List.mem_cons_of_mem _ hr))
        refine ⟨by rw [hl3, hlen, List.sum_cons]; omega, ?_⟩
        intro i hi
        cases i with
        | zero => simp [hoff]
        | succ i =>
          simp only [List.length_cons, Nat.add_lt_add_iff_right] at hi
          simp only [List.getElem?_cons_succ, List.take_succ_cons, List.sum_cons]
          rw [hrest i hi, hlen]
          simp only [Option.some.injEq, Prod.mk.injEq, and_true]
          omega

/-! ## Reader -/

theorem maxInt_lt_two_pow_64 (ws : WordSize) : maxInt ws < 2 ^ 64 := by
  cases ws <;> decide

/-- A `uint64` sum of two `uint32` values is the exact sum. -/
theorem uint64_sum_exact (ptr size : Nat) (hp : ptr < 2 ^ 32) (hs : size < 2 ^ 32) :
    (ptr % 2 ^ 64 + size % 2 ^ 64) % 2 ^ 64 = ptr + size := by
  omega

theorem NewReader_Size (ws : WordSize) (addr : Nat) (mem : Slice) (hm : mem.WF ws) :
    (NewReader addr mem).Size = mem.len := by
  have h1 : mem.len ≤ maxInt ws := Nat.le_trans hm.1 hm.2
  have h2 := maxInt_lt_two_pow_64 ws
  unfold NewReader
  by_cases h : mem.len = 0
  · rw [if_pos h, h]
  · rw [if_neg h]
    exact Nat.mod_eq_of_lt (by omega)

/-! ## What `WriteAt` does -/

theorem getElem?_splice (arr data : List UInt8) (off i : Nat)
    (h : off + data.length ≤ arr.length) :
    (arr.take off ++ data ++ arr.drop (off + data.length))[i]? =
      if i < off then arr[i]? else if i < off + data.length then data[i - off]? else arr[i]? := by
  have hl : (arr.take off).length = off := by
    rw [List.length_take]; omega
  by_cases h1 : i < off
  · rw [if_pos h1, List.append_assoc, List.getElem?_append_left (by omega)]
    rw [List.getElem?_take_of_lt h1]
  · rw [if_neg h1]
    by_cases h2 : i < off + data.length
    · rw [if_pos h2, List.getElem?_append_left (by rw [List.length_append]; omega)]
      rw [List.getElem?_append_right (by omega), hl]
    · rw [if_neg h2, List.getElem?_append_right (by rw [List.length_append]; omega)]
      rw [List.length_append, hl, List.getElem?_drop]
      congr 1
      omega

theorem length_splice (arr data : List UInt8) (off : Nat)
    (h : off + data.length ≤ arr.length) :
    (arr.take off ++ data ++ arr.drop (off + data.length)).length = arr.length := by
  simp only [List.length_append, List.length_take, List.length_drop]
  omega

/-- `WriteAt` at an offset within the length returns; the length and the mode
are kept, and so is the capacity. -/
theorem WriteAt_frame (w : Writer) (off : Nat) (data : List UInt8)
    (hw : w.Memory.len ≤ w.Memory.cap) (h : off ≤ w.Memory.len) :
    ∃ w1, WriteAt w off data = some w1 ∧ w1.Memory.len = w.Memory.len ∧
      w1.Memory.cap = w.Memory.cap ∧ w1.isFixed = w.isFixed := by
  have he : WriteAt w off data = some { w with Memory :=
      ⟨copyInto w.Memory.arr off (w.Memory.len - off) data, w.Memory.len⟩ } := by
    simp only [WriteAt, Slice.dropFront, h, if_true]
  refine ⟨_, he, rfl, ?_, rfl⟩
  · simp only [Slice.cap, copyInto] at hw ⊢
    have hk : (data.take (min (w.Memory.len - off) data.length)).length
        = min (w.Memory.len - off) data.length := by
      rw [List.length_take]; omega
    have hs := length_splice w.Memory.arr
      (data.take (min (w.Memory.len - off) data.length)) off (by rw [hk]; omega)
    rw [hk] at hs
    exact hs

/-- `WriteAt` panics exactly when the offset is beyond the length. -/
theorem WriteAt_eq_none_iff (w : Writer) (off : Nat) (data : List UInt8) :
    WriteAt w off data = none ↔ w.Memory.len < off := by
  unfold WriteAt Slice.dropFront
  by_cases h : off ≤ w.Memory.len
  · simp only [h, if_true]
    constructor
    · intro h1; simp at h1
    · intro h1; omega
  · simp only [h, if_false, true_iff]
    omega

/-- `WriteAt` of data that fits between the offset and the length. -/
theorem WriteAt_within (w : Writer) (off : Nat) (data : List UInt8)
    (h : off + data.length ≤ w.Memory.len) :
    WriteAt w off data = some { w with Memory :=
      ⟨w.Memory.arr.take off ++ data ++ w.Memory.arr.drop (off + data.length),
        w.Memory.len⟩ } := by
  have h1 : off ≤ w.Memory.len := by omega
  have h2 : min (w.Memory.len - off) data.length = data.length := by omega
  simp only [WriteAt, Slice.dropFront, h1, if_true, copyInto, h2, List.take_length]

/-! ## Sequences of calls -/

/-- Along calls without `Reset`, from a writer Go can hold, the length is the
starting length plus the sizes of the `Alloc` calls that returned a nil error,
as long as that sum fits in the word. -/
theorem run_length (P : Platform) (ops : List Op) :
    ∀ (w w1 : Writer) (tr : List (Op × Ret)), w.WF P.word → Op.reset ∉ ops →
      run P w ops = some (tr, w1) → w.Memory.len + allocated tr < uintMod P.word →
      w1.WF P.word ∧ w1.Memory.len = w.Memory.len + allocated tr := by
  induction ops with
  | nil =>
    intro w w1 tr hw _ h _
    simp only [run, Option.some.injEq, Prod.mk.injEq] at h
    obtain ⟨h1, h2⟩ := h
    subst h1 h2
    exact ⟨hw, rfl⟩
  | cons op ops ih =>
    intro w w1 tr hw hnr h hsum
    have hnr1 : op ≠ Op.reset := fun e => hnr (e ▸ List.mem_cons_self _ _)
    have hnr2 : Op.reset ∉ ops := fun e => hnr (List.mem_cons_of_mem _ e)
    simp only [run] at h
    cases hs : step P w op with
    | none => simp [hs] at h
    | some p =>
      obtain ⟨r, w2⟩ := p
      simp only [hs] at h
      cases ht : run P w2 ops with
      | none => simp [ht] at h
      | some q =>
        obtain ⟨tr2, w3⟩ := q
        simp only [ht, Option.some.injEq, Prod.mk.injEq] at h
        obtain ⟨h1, h2⟩ := h
        subst h1 h2
        cases op with
        | alloc n =>
          simp only [step, Option.map_eq_some'] at hs
          obtain ⟨⟨⟨off, err⟩, w4⟩, ha, hb⟩ := hs
          simp only [Prod.mk.injEq] at hb
          obtain ⟨hb1, hb2⟩ := hb
          subst hb1 hb2
          cases err with
          | none =>
            simp only [allocated] at hsum ⊢
            obtain ⟨_, hlen, hw4, _, _⟩ := Alloc_nil_of_lt P w w4 n off hw (by omega) ha
            obtain ⟨i1, i2⟩ := ih w4 w3 tr2 hw4 hnr2 ht (by rw [hlen]; omega)
            exact ⟨i1, by rw [i2, hlen]; omega⟩
          | some e =>
            simp only [allocated] at hsum ⊢
            obtain ⟨he, _⟩ := Alloc_err_unchanged P w w4 n off e ha
            subst he
            exact ih w4 w3 tr2 hw hnr2 ht hsum
        | writeAt off data =>
          simp only [step, Option.map_eq_some'] at hs
          obtain ⟨w4, ha, hb⟩ := hs
          simp only [Prod.mk.injEq] at hb
          obtain ⟨hb1, hb2⟩ := hb
          subst hb1 hb2
          simp only [allocated] at hsum ⊢
          have hoff : off ≤ w.Memory.len := by
            by_contra hc
            rw [(WriteAt_eq_none_iff w off data).mpr (by omega)] at ha
            simp at ha
          obtain ⟨w5, e1, e2, e3, _⟩ := WriteAt_frame w off data hw.1 hoff
          rw [ha] at e1
          simp only [Option.some.injEq] at e1
          subst e1
          have hw4 : w4.WF P.word := ⟨by rw [e2, e3]; exact hw.1, by rw [e3]; exact hw.2⟩
          obtain ⟨i1, i2⟩ := ih w4 w3 tr2 hw4 hnr2 ht (by rw [e2]; exact hsum)
          exact ⟨i1, by rw [i2, e2]⟩
        | reset => exact absurd rfl hnr1
        | bytes =>
          simp only [step, Bytes, Option.some.injEq, Prod.mk.injEq] at hs
          obtain ⟨hb1, hb2⟩ := hs
          subst hb1 hb2
          simp only [allocated] at hsum ⊢
          exact ih w w3 tr2 hw hnr2 ht hsum

/-! ## What every call keeps -/

theorem uadd_mod_right (ws : WordSize) (a n : Nat) :
    uadd ws a (n % uintMod ws) = uadd ws a n := by
  unfold uadd
  exact Nat.add_mod_mod a n (uintMod ws)

/-- `Alloc` reads its argument as a `uint`. -/
theorem Alloc_mod (P : Platform) (w : Writer) (n : Nat) :
    Alloc P w (n % uintMod P.word) = Alloc P w n := by
  simp only [Alloc, uadd_mod_right]

/-- An `Alloc` that returns, on a writer Go can hold: the writer afterwards is
one Go can hold, the mode is kept, a fixed writer keeps its backing array, and a
nil error comes with the old length as offset. -/
theorem Alloc_keeps (P : Platform) (w w1 : Writer) (n : Nat) (r : Nat × Option Error)
    (hw : w.WF P.word) (h : Alloc P w n = some (r, w1)) :
    w1.WF P.word ∧ w1.isFixed = w.isFixed ∧
      (w.isFixed = true → w1.Memory.arr = w.Memory.arr) ∧
      (r.2 = none → r.1 = w.Memory.len) := by
  rw [← Alloc_mod] at h
  have hm : n % uintMod P.word < uintMod P.word := Nat.mod_lt _ (uintMod_pos P.word)
  generalize n % uintMod P.word = m at h hm
  have hlen : w.Memory.len ≤ w.Memory.cap := hw.1
  have hcap : w.Memory.cap ≤ maxInt P.word := hw.2
  by_cases hwrap : uintMod P.word ≤ w.Memory.len + m
  · rw [Alloc_wrap P w m hw hm hwrap] at h
    simp only [Option.some.injEq, Prod.mk.injEq] at h
    obtain ⟨h1, h2⟩ := h
    subst h1 h2
    refine ⟨⟨?_, hcap⟩, rfl, fun _ => rfl, fun _ => rfl⟩
    show w.Memory.len + m - uintMod P.word ≤ w.Memory.cap
    omega
  · have hlt : w.Memory.len + m < uintMod P.word := Nat.lt_of_not_le hwrap
    by_cases hfit : w.Memory.len + m ≤ w.Memory.cap
    · rw [Alloc_fits P w m hw hfit] at h
      simp only [Option.some.injEq, Prod.mk.injEq] at h
      obtain ⟨h1, h2⟩ := h
      subst h1 h2
      exact ⟨⟨hfit, hcap⟩, rfl, fun _ => rfl, fun _ => rfl⟩
    · have hfit2 : w.Memory.cap < w.Memory.len + m := Nat.lt_of_not_le hfit
      cases hf : w.isFixed with
      | true =>
        rw [Alloc_fixed_full P w m hw hf hfit2 hlt] at h
        simp only [Option.some.injEq, Prod.mk.injEq] at h
        obtain ⟨h1, h2⟩ := h
        subst h1 h2
        exact ⟨hw, hf, fun _ => rfl, fun e => by simp at e⟩
      | false =>
        rcases Alloc_grow_cases P w m hw hf hfit2 hlt with ⟨_, _, hg⟩ | hnone
        · obtain ⟨_, _, h3, h4, _⟩ := Alloc_nil_of_lt P w _ m _ hw hlt hg
          rw [hg] at h
          simp only [Option.some.injEq, Prod.mk.injEq] at h
          obtain ⟨h1, h2⟩ := h
          subst h1 h2
          exact ⟨h3, by rw [h4, hf], fun e => by simp at e, fun _ => rfl⟩
        · rw [hnone] at h
          simp at h

/-- A `WriteAt` that returns, on a writer Go can hold: the length, the capacity
and the mode are kept. -/
theorem WriteAt_keeps (ws : WordSize) (w w1 : Writer) (off : Nat) (data : List UInt8)
    (hw : w.WF ws) (h : WriteAt w off data = some w1) :
    w1.WF ws ∧ w1.isFixed = w.isFixed ∧ w1.Memory.cap = w.Memory.cap ∧
      w1.Memory.len = w.Memory.len := by
  have hoff : off ≤ w.Memory.len := by
    by_contra hc
    rw [(WriteAt_eq_none_iff w off data).mpr (by omega)] at h
    simp at h
  obtain ⟨w2, e1, e2, e3, e4⟩ := WriteAt_frame w off data hw.1 hoff
  rw [h] at e1
  simp only [Option.some.injEq] at e1
  subst e1
  exact ⟨⟨by rw [e2, e3]; exact hw.1, by rw [e3]; exact hw.2⟩, e4, e3, e2⟩

/-- One call that returns, on a writer Go can hold: the writer afterwards is one
Go can hold, the mode is kept, and a fixed writer keeps its capacity. -/
theorem step_keeps (P : Platform) (w w1 : Writer) (op : Op) (r : Ret)
    (hw : w.WF P.word) (h : step P w op = some (r, w1)) :
    w1.WF P.word ∧ w1.isFixed = w.isFixed ∧
      (w.isFixed = true → w1.Memory.cap = w.Memory.cap) := by
  cases op with
  | alloc n =>
    simp only [step, Option.map_eq_some'] at h
    obtain ⟨⟨r2, w2⟩, ha, hb⟩ := h
    simp only [Prod.mk.injEq] at hb
    obtain ⟨_, hb2⟩ := hb
    subst hb2
    obtain ⟨h1, h2, h3, _⟩ := Alloc_keeps P w w2 n r2 hw ha
    exact ⟨h1, h2, fun hf => by simp only [Slice.cap, h3 hf]⟩
  | writeAt off data =>
    simp only [step, Option.map_eq_some'] at h
    obtain ⟨w2, ha, hb⟩ := h
    simp only [Prod.mk.injEq] at hb
    obtain ⟨_, hb2⟩ := hb
    subst hb2
    obtain ⟨h1, h2, h3, _⟩ := WriteAt_keeps P.word w w2 off data hw ha
    exact ⟨h1, h2, fun _ => h3⟩
  | reset =>
    simp only [step, Reset_some, Option.map_some', Option.some.injEq, Prod.mk.injEq] at h
    obtain ⟨_, hb2⟩ := h
    subst hb2
    exact ⟨⟨Nat.zero_le _, hw.2⟩, rfl, fun _ => rfl⟩
  | bytes =>
    simp only [step, Bytes, Option.some.injEq, Prod.mk.injEq] at h
    obtain ⟨_, hb2⟩ := h
    subst hb2
    exact ⟨hw, rfl, fun _ => rfl⟩

/-- A sequence of calls that returns, from a writer Go can hold: the writer at
the end is one Go can hold, the mode is kept, and a fixed writer keeps its
capacity. -/
theorem run_keeps (P : Platform) (ops : List Op) :
    ∀ (w w1 : Writer) (tr : List (Op × Ret)), w.WF P.word →
      run P w ops = some (tr, w1) →
      w1.WF P.word ∧ w1.isFixed = w.isFixed ∧
        (w.isFixed = true → w1.Memory.cap = w.Memory.cap) := by
  induction ops with
  | nil =>
    intro w w1 tr hw h
    simp only [run, Option.some.injEq, Prod.mk.injEq] at h
    obtain ⟨_, h2⟩ := h
    subst h2
    exact ⟨hw, rfl, fun _ => rfl⟩
  | cons op ops ih =>
    intro w w1 tr hw h
    simp only [run] at h
    cases hs : step P w op with
    | none => simp [hs] at h
    | some p =>
      obtain ⟨r, w2⟩ := p
      simp only [hs] at h
      cases ht : run P w2 ops with
      | none => simp [ht] at h
      | some q =>
        obtain ⟨tr2, w3⟩ := q
        simp only [ht, Option.some.injEq, Prod.mk.injEq] at h
        obtain ⟨_, h2⟩ := h
        subst h2
        obtain ⟨s1, s2, s3⟩ := step_keeps P w w2 op r hw hs
        obtain ⟨i1, i2, i3⟩ := ih w2 w3 tr2 s1 ht
        refine ⟨i1, by rw [i2, s2], fun hf => ?_⟩
        rw [i3 (by rw [s2, hf]), s3 hf]

/-- An `Alloc` that grew and returned, with the sum fitting in the word: the
elements afterwards are the old elements followed by `n` zero bytes. -/
theorem Alloc_grown_bytes (P : Platform) (w w1 : Writer) (n off : Nat)
    (hw : w.WF P.word) (hlt : w.Memory.len + n < uintMod P.word)
    (hgrow : w.Memory.cap < w.Memory.len + n)
    (h : Alloc P w n = some ((off, none), w1)) :
    w1.Memory.toList = w.Memory.toList ++ List.replicate n 0 := by
  have hlen : w.Memory.len ≤ w.Memory.arr.length := hw.1
  cases hf : w.isFixed with
  | true =>
    rw [Alloc_fixed_full P w n hw hf hgrow hlt] at h
    simp at h
  | false =>
    rcases Alloc_grow_cases P w n hw hf hgrow hlt with ⟨_, _, hg⟩ | hnone
    · rw [hg] at h
      simp only [Option.some.injEq, Prod.mk.injEq, and_true] at h
      obtain ⟨_, h2⟩ := h
      subst h2
      have htl : (w.Memory.toList ++ List.replicate n 0).length = w.Memory.len + n := by
        simp only [Slice.toList, List.length_append, List.length_take, List.length_replicate]
        omega
      show List.take (w.Memory.len + n) (w.Memory.toList ++ List.replicate n 0 ++ _)
        = w.Memory.toList ++ List.replicate n 0
      rw [← htl, List.take_left']
      rfl
    · rw [hnone] at h
      simp at h

/-! ## Claims -/

/-- C1: on a writer just made by `NewWriter` (any capacity) or just reset, a run
of `Alloc` calls with sizes `ns` whose sum fits in the word and that all return
a nil error returns, at call `i`, the offset `ns[0] + ... + ns[i-1]` with a nil
error (so the first offset is 0); each offset is the previous one plus the
previous size, and an earlier region ends before a later one starts. -/
theorem alloc_offsets_are_running_sums (P : Platform) (w0 w w1 : Writer) (c : Int)
    (ns : List Nat) (rs : List (Nat × Option Error))
    (hfresh : NewWriter P c = some w ∨ (w0.WF P.word ∧ Reset w0 = some w))
    (hsum : ns.sum < uintMod P.word)
    (hrun : allocSeq P w ns = some (rs, w1))
    (hok : ∀ r ∈ rs, r.2 = none) :
    (∀ i, i < ns.length → rs[i]? = some ((ns.take i).sum, none)) ∧
    (∀ i oi oj, i + 1 < ns.length → rs[i]? = some (oi, none) →
      rs[i + 1]? = some (oj, none) → oj = oi + ns.getD i 0) ∧
    (∀ i j oi oj, i < j → j < ns.length → rs[i]? = some (oi, none) →
      rs[j]? = some (oj, none) → oi + ns.getD i 0 ≤ oj) := by
  obtain ⟨hw, hlen⟩ := fresh_empty P w0 w c hfresh
  obtain ⟨_, hoffs⟩ := allocSeq_offsets P ns w w1 rs hw (by rw [hlen]; omega) hrun hok
  rw [hlen] at hoffs
  simp only [Nat.zero_add] at hoffs
  refine ⟨hoffs, ?_, ?_⟩
  · intro i oi oj hi h1 h2
    rw [hoffs i (by omega)] at h1
    rw [hoffs (i + 1) hi] at h2
    simp only [Option.some.injEq, Prod.mk.injEq, and_true] at h1 h2
    rw [← h1, ← h2]
    exact sum_take_succ_getD ns i (by omega)
  · intro i j oi oj hij hj h1 h2
    rw [hoffs i (by omega)] at h1
    rw [hoffs j hj] at h2
    simp only [Option.some.injEq, Prod.mk.injEq, and_true] at h1 h2
    rw [← h1, ← h2, ← sum_take_succ_getD ns i (by omega)]
    exact sum_take_le ns (i + 1) j hij

/-- C1 at `NewWriter(4)` on 64 bits with the sizes 4, 3, 5: the calls return
the offsets 0, 4, 7. -/
theorem alloc_offsets_are_running_sums_witness :
    allocSeq (doubling .w64) ⟨⟨[0, 0, 0, 0], 0⟩, false⟩ [4, 3, 5]
      = some ([(0, none), (4, none), (7, none)],
          ⟨⟨[0, 0, 0, 0, 0, 0, 0, 0, 0, 0, 0, 0, 0, 0, 0, 0], 12⟩, false⟩) ∧
    ((∀ i, i < [4, 3, 5].length →
        [((0 : Nat), (none : Option Error)), (4, none), (7, none)][i]?
          = some (([4, 3, 5].take i).sum, none)) ∧
      (∀ i oi oj, i + 1 < [4, 3, 5].length →
        [((0 : Nat), (none : Option Error)), (4, none), (7, none)][i]? = some (oi, none) →
        [((0 : Nat), (none : Option Error)), (4, none), (7, none)][i + 1]? = some (oj, none) →
        oj = oi + [4, 3, 5].getD i 0) ∧
      (∀ i j oi oj, i < j → j < [4, 3, 5].length →
        [((0 : Nat), (none : Option Error)), (4, none), (7, none)][i]? = some (oi, none) →
        [((0 : Nat), (none : Option Error)), (4, none), (7, none)][j]? = some (oj, none) →
        oi + [4, 3, 5].getD i 0 ≤ oj)) :=
  ⟨by decide,
   alloc_offsets_are_running_sums (doubling .w64) ⟨⟨[], 0⟩, false⟩
    ⟨⟨[0, 0, 0, 0], 0⟩, false⟩ ⟨⟨[0, 0, 0, 0, 0, 0, 0, 0, 0, 0, 0, 0, 0, 0, 0, 0], 12⟩, false⟩ 4
    [4, 3, 5] [(0, none), (4, none), (7, none)]
    (Or.inl (by decide)) (by decide) (by decide) (by decide)⟩

/-- C2 fails on the code: a fixed writer over a 4-byte buffer that holds 1 byte,
asked on 64 bits for `2^64 - 1` bytes. The sum `1 + (2^64 - 1)` exceeds the
capacity 4, yet `Alloc` returns the offset 1 with a nil error, and cuts the
length down to 0. -/
theorem fixed_alloc_wrapped_sum_no_error :
    Alloc (exactFit .w64) (NewFixedWriter ⟨[0, 0, 0, 0], 0⟩) 1
      = some ((0, none), ⟨⟨[0, 0, 0, 0], 1⟩, true⟩) ∧
    (⟨⟨[0, 0, 0, 0], 1⟩, true⟩ : Writer).WF .w64 ∧
    2 ^ 64 - 1 < uintMod .w64 ∧
    (⟨[0, 0, 0, 0], 1⟩ : Slice).cap < (⟨[0, 0, 0, 0], 1⟩ : Slice).len + (2 ^ 64 - 1) ∧
    Alloc (exactFit .w64) ⟨⟨[0, 0, 0, 0], 1⟩, true⟩ (2 ^ 64 - 1)
      = some ((1, none), ⟨⟨[0, 0, 0, 0], 0⟩, true⟩) := by
  refine ⟨by decide, by decide, by decide, by decide, by decide⟩

/-- C3: when `Alloc` returns `ErrOutOfMemory`, the writer afterwards is the
writer before (length, capacity, bytes and mode), and the offset returned is 0. -/
theorem alloc_error_leaves_writer (P : Platform) (w w1 : Writer) (n off : Nat)
    (h : Alloc P w n = some ((off, some Error.ErrOutOfMemory), w1)) :
    w1 = w ∧ w1.Memory.len = w.Memory.len ∧ w1.Memory.cap = w.Memory.cap ∧
      w1.Memory.arr = w.Memory.arr ∧ w1.isFixed = w.isFixed ∧ off = 0 := by
  obtain ⟨h1, h2, _, _⟩ := Alloc_err_unchanged P w w1 n off _ h
  subst h1
  exact ⟨rfl, rfl, rfl, rfl, rfl, h2⟩

/-- C3 at a full fixed writer over the bytes 1, 2, 3, 4, asked for one more byte. -/
theorem alloc_error_leaves_writer_witness :
    Alloc (exactFit .w64) ⟨⟨[1, 2, 3, 4], 4⟩, true⟩ 1
      = some ((0, some Error.ErrOutOfMemory), ⟨⟨[1, 2, 3, 4], 4⟩, true⟩) ∧
    ((⟨⟨[1, 2, 3, 4], 4⟩, true⟩ : Writer) = ⟨⟨[1, 2, 3, 4], 4⟩, true⟩ ∧
      (⟨⟨[1, 2, 3, 4], 4⟩, true⟩ : Writer).Memory.len
        = (⟨⟨[1, 2, 3, 4], 4⟩, true⟩ : Writer).Memory.len ∧
      (⟨⟨[1, 2, 3, 4], 4⟩, true⟩ : Writer).Memory.cap
        = (⟨⟨[1, 2, 3, 4], 4⟩, true⟩ : Writer).Memory.cap ∧
      (⟨⟨[1, 2, 3, 4], 4⟩, true⟩ : Writer).Memory.arr
        = (⟨⟨[1, 2, 3, 4], 4⟩, true⟩ : Writer).Memory.arr ∧
      (⟨⟨[1, 2, 3, 4], 4⟩, true⟩ : Writer).isFixed
        = (⟨⟨[1, 2, 3, 4], 4⟩, true⟩ : Writer).isFixed ∧ 0 = 0) :=
  ⟨by decide,
   alloc_error_leaves_writer (exactFit .w64) ⟨⟨[1, 2, 3, 4], 4⟩, true⟩
    ⟨⟨[1, 2, 3, 4], 4⟩, true⟩ 1 0 (by decide)⟩

/-- C4 fails as stated: on 64 bits the writer of `NewWriter(0)`, growable, asked
for `2^63` bytes (a `uint`), does not return: `make` panics, a slice cannot be
that long. The same on 32 bits with `2^31` bytes. -/
theorem growable_alloc_beyond_int_panics :
    NewWriter (exactFit .w64) 0 = some ⟨⟨[], 0⟩, false⟩ ∧
    2 ^ 63 < uintMod .w64 ∧
    Alloc (exactFit .w64) ⟨⟨[], 0⟩, false⟩ (2 ^ 63) = none ∧
    NewWriter (exactFit .w32) 0 = some ⟨⟨[], 0⟩, false⟩ ∧
    2 ^ 31 < uintMod .w32 ∧
    Alloc (exactFit .w32) ⟨⟨[], 0⟩, false⟩ (2 ^ 31) = none := by
  refine ⟨by decide, by decide, by decide, by decide, by decide, by decide⟩

/-- C4 as amended: a growable writer never gets `ErrOutOfMemory` from `Alloc`,
whatever `n`. When the old length plus `n` fits in the capacity, or is at most
the largest `int` and the array `append` allocates for it is within the
runtime's allocation limit, `Alloc(n)` returns the old length with a nil error,
and afterwards the length is the old length plus `n`, within the capacity, and
the writer is still growable. When the old length plus `n` exceeds the capacity
and fits in the word, and it exceeds the largest `int` or the array `append`
would allocate is beyond the allocation limit (as it is whenever the old length
plus `n` is beyond that limit), `Alloc(n)` panics. -/
theorem growable_alloc_within_limits (P : Platform) (w : Writer) (n : Nat)
    (hw : w.WF P.word) (hf : w.isFixed = false) :
    (∀ off w1, Alloc P w n ≠ some ((off, some Error.ErrOutOfMemory), w1)) ∧
    (w.Memory.len + n ≤ w.Memory.cap ∨
        (w.Memory.len + n ≤ maxInt P.word ∧
          P.growCap w.Memory.cap (w.Memory.len + n) ≤ P.maxAlloc) →
      ∃ w1, Alloc P w n = some ((w.Memory.len, none), w1) ∧
        w1.Memory.len = w.Memory.len + n ∧ w1.Memory.len ≤ w1.Memory.cap ∧
        w1.isFixed = false) ∧
    (w.Memory.cap < w.Memory.len + n → w.Memory.len + n < uintMod P.word →
      maxInt P.word < w.Memory.len + n ∨
        P.maxAlloc < P.growCap w.Memory.cap (w.Memory.len + n) →
      Alloc P w n = none) ∧
    (w.Memory.cap < w.Memory.len + n → w.Memory.len + n < uintMod P.word →
      P.maxAlloc < w.Memory.len + n → Alloc P w n = none) := by
  have hM := maxInt_lt_uintMod P.word
  have hcap : w.Memory.cap ≤ maxInt P.word := hw.2
  have hg := P.growCap_ge w.Memory.cap (w.Memory.len + n)
  have hpanic : w.Memory.cap < w.Memory.len + n → w.Memory.len + n < uintMod P.word →
      maxInt P.word < w.Memory.len + n ∨
        P.maxAlloc < P.growCap w.Memory.cap (w.Memory.len + n) →
      Alloc P w n = none := by
    intro h1 h2 h3
    by_cases hmax : w.Memory.len + n ≤ maxInt P.word
    · rcases h3 with h3 | h3
      · omega
      · exact Alloc_grow_limit P w n hw hf h1 hmax h3
    · exact Alloc_grow_panic P w n hw hf (Nat.lt_of_not_le hmax) h2
  refine ⟨fun off w1 => Alloc_growable_no_err P w w1 n off _ hf, ?_, hpanic,
    fun h1 h2 h3 => hpanic h1 h2 (Or.inr (by omega))⟩
  intro hle
  have key : ∀ w1, w.Memory.len + n < uintMod P.word →
      Alloc P w n = some ((w.Memory.len, none), w1) →
      ∃ w1, Alloc P w n = some ((w.Memory.len, none), w1) ∧
        w1.Memory.len = w.Memory.len + n ∧ w1.Memory.len ≤ w1.Memory.cap ∧
        w1.isFixed = false := by
    intro w1 hlt h
    obtain ⟨_, h2, h3, h4, _⟩ := Alloc_nil_of_lt P w w1 n _ hw hlt h
    exact ⟨w1, h, h2, h3.1, by rw [h4, hf]⟩
  by_cases hfit : w.Memory.len + n ≤ w.Memory.cap
  · exact key _ (by omega) (Alloc_fits P w n hw hfit)
  · rcases hle with hle | ⟨hle, hA⟩
    · exact absurd hle hfit
    · exact key _ (by omega) (Alloc_grow P w n hw hf (Nat.lt_of_not_le hfit) hle hA)

/-- C4 as amended, at a growable writer holding the bytes 1, 2, 3, 4 in a
capacity of 4: asked for 4 more bytes it grows; asked on 64 bits for `2^62`
bytes, more than the allocation limit `2^48`, it panics. -/
theorem growable_alloc_within_limits_witness :
    (⟨⟨[1, 2, 3, 4], 4⟩, false⟩ : Writer).WF .w64 ∧
    Alloc (doubling .w64) ⟨⟨[1, 2, 3, 4], 4⟩, false⟩ 4
      = some ((4, none), ⟨⟨[1, 2, 3, 4, 0, 0, 0, 0], 8⟩, false⟩) ∧
    (∃ w1, Alloc (doubling .w64) ⟨⟨[1, 2, 3, 4], 4⟩, false⟩ 4
        = some (((⟨⟨[1, 2, 3, 4], 4⟩, false⟩ : Writer).Memory.len, none), w1) ∧
      w1.Memory.len = (⟨⟨[1, 2, 3, 4], 4⟩, false⟩ : Writer).Memory.len + 4 ∧
      w1.Memory.len ≤ w1.Memory.cap ∧ w1.isFixed = false) ∧
    (doubling .w64).maxAlloc < (⟨⟨[1, 2, 3, 4], 4⟩, false⟩ : Writer).Memory.len + 2 ^ 62 ∧
    2 ^ 62 ≤ maxInt .w64 ∧
    Alloc (doubling .w64) ⟨⟨[1, 2, 3, 4], 4⟩, false⟩ (2 ^ 62) = none :=
  ⟨by decide, by decide,
   (growable_alloc_within_limits (doubling .w64) ⟨⟨[1, 2, 3, 4], 4⟩, false⟩ 4
      (by decide) rfl).2.1 (Or.inr ⟨by decide, by decide⟩),
   by decide, by decide,
   (growable_alloc_within_limits (doubling .w64) ⟨⟨[1, 2, 3, 4], 4⟩, false⟩ (2 ^ 62)
      (by decide) rfl).2.2.2 (by decide) (by decide) (by decide)⟩

/-- C5: for a byte buffer `mem` and `uint32` values `ptr` and `size`,
`NewReader(mem).IsValidOffset(ptr, size)` is true exactly when the exact sum
`ptr + size` is at most `len(mem)`; the `uint64` sum the code computes is that
exact sum. -/
theorem isValidOffset_iff (ws : WordSize) (addr : Nat) (mem : Slice) (ptr size : Nat)
    (hm : mem.WF ws) (hp : ptr < 2 ^ 32) (hs : size < 2 ^ 32) :
    (IsValidOffset (NewReader addr mem) ptr size = true ↔ ptr + size ≤ mem.len) ∧
    (ptr % 2 ^ 64 + size % 2 ^ 64) % 2 ^ 64 = ptr + size := by
  have hsum := uint64_sum_exact ptr size hp hs
  refine ⟨?_, hsum⟩
  unfold IsValidOffset
  rw [hsum, NewReader_Size ws addr mem hm]
  simp only [ge_iff_le, decide_eq_true_eq]

/-- C5 over a 10-byte buffer: `IsValidOffset(6, 4)` is true and
`IsValidOffset(7, 4)` is false. -/
theorem isValidOffset_iff_witness :
    (⟨[0, 0, 0, 0, 0, 0, 0, 0, 0, 0], 10⟩ : Slice).WF .w64 ∧
    IsValidOffset (NewReader 4096 ⟨[0, 0, 0, 0, 0, 0, 0, 0, 0, 0], 10⟩) 6 4 = true ∧
    IsValidOffset (NewReader 4096 ⟨[0, 0, 0, 0, 0, 0, 0, 0, 0, 0], 10⟩) 7 4 = false :=
  ⟨by decide,
   (isValidOffset_iff .w64 4096 ⟨[0, 0, 0, 0, 0, 0, 0, 0, 0, 0], 10⟩ 6 4
      (by decide) (by decide) (by decide)).1.mpr (by decide),
   Bool.eq_false_iff.mpr fun h =>
     absurd ((isValidOffset_iff .w64 4096 ⟨[0, 0, 0, 0, 0, 0, 0, 0, 0, 0], 10⟩ 7 4
       (by decide) (by decide) (by decide)).1.mp h) (by decide)⟩

/-- C6: the reader `NewReader` builds from an empty buffer has size 0, the nil
slice as memory and no base pointer, and for `uint32` values `ptr` and `size`
its `IsValidOffset(ptr, size)` is true exactly when both are 0; so it is false
whenever `size > 0`. -/
theorem empty_reader (addr : Nat) (mem : Slice) (ptr size : Nat)
    (hm : mem.len = 0) (hp : ptr < 2 ^ 32) (hs : size < 2 ^ 32) :
    (NewReader addr mem).Size = 0 ∧
    (NewReader addr mem).Memory = Slice.nil ∧
    (NewReader addr mem).Memory.toList = [] ∧
    (NewReader addr mem).Pointer = none ∧
    (IsValidOffset (NewReader addr mem) ptr size = true ↔ ptr = 0 ∧ size = 0) ∧
    (0 < size → IsValidOffset (NewReader addr mem) ptr size = false) := by
  have hsum := uint64_sum_exact ptr size hp hs
  have hr : NewReader addr mem
      = { Memory := Slice.nil, Pointer := none, Size := 0, Min := 0, Max := 0 } := by
    unfold NewReader
    rw [if_pos hm]
  rw [hr]
  refine ⟨rfl, rfl, rfl, rfl, ?_, ?_⟩
  · unfold IsValidOffset
    rw [hsum]
    simp only [ge_iff_le, decide_eq_true_eq]
    omega
  · intro h
    unfold IsValidOffset
    rw [hsum]
    simp only [ge_iff_le, decide_eq_false_iff_not]
    omega

/-- C6 at an empty buffer that has a capacity of 2: `IsValidOffset(0, 0)` is
true, `IsValidOffset(0, 1)` and `IsValidOffset(1, 0)` are false. -/
theorem empty_reader_witness :
    (⟨[7, 9], 0⟩ : Slice).len = 0 ∧
    (NewReader 4096 ⟨[7, 9], 0⟩).Size = 0 ∧
    (NewReader 4096 ⟨[7, 9], 0⟩).Memory = Slice.nil ∧
    IsValidOffset (NewReader 4096 ⟨[7, 9], 0⟩) 0 0 = true ∧
    IsValidOffset (NewReader 4096 ⟨[7, 9], 0⟩) 0 1 = false ∧
    IsValidOffset (NewReader 4096 ⟨[7, 9], 0⟩) 1 0 = false :=
  ⟨rfl,
   (empty_reader 4096 ⟨[7, 9], 0⟩ 0 0 rfl (by decide) (by decide)).1,
   (empty_reader 4096 ⟨[7, 9], 0⟩ 0 0 rfl (by decide) (by decide)).2.1,
   (empty_reader 4096 ⟨[7, 9], 0⟩ 0 0 rfl (by decide) (by decide)).2.2.2.2.1.mpr ⟨rfl, rfl⟩,
   (empty_reader 4096 ⟨[7, 9], 0⟩ 0 1 rfl (by decide) (by decide)).2.2.2.2.2 (by decide),
   by decide⟩

/-- C7: when `offset + len(data)` is at most the length, `WriteAt(offset, data)`
returns, and afterwards the bytes of `Bytes()` at `offset, ..., offset+len(data)-1`
are `data`, every other byte of `Bytes()` is what it was, and the length is what
it was. -/
theorem writeAt_within_length (w : Writer) (off : Nat) (data : List UInt8)
    (hw : w.Memory.len ≤ w.Memory.cap) (h : off + data.length ≤ w.Memory.len) :
    ∃ w1, WriteAt w off data = some w1 ∧
      (Bytes w1).1.len = (Bytes w).1.len ∧
      (Bytes w1).1.toList.length = (Bytes w).1.toList.length ∧
      (∀ i, i < data.length → (Bytes w1).1.toList[off + i]? = data[i]?) ∧
      (∀ i, i < off ∨ off + data.length ≤ i →
        (Bytes w1).1.toList[i]? = (Bytes w).1.toList[i]?) := by
  have hw2 : w.Memory.len ≤ w.Memory.arr.length := hw
  have harr : off + data.length ≤ w.Memory.arr.length := by omega
  have hlen := length_splice w.Memory.arr data off harr
  refine ⟨_, WriteAt_within w off data h, rfl, ?_, ?_, ?_⟩
  · simp only [Bytes, Slice.toList, List.length_take, hlen]
  · intro i hi
    simp only [Bytes, Slice.toList]
    rw [List.getElem?_take_of_lt (by omega), getElem?_splice _ _ _ _ harr]
    rw [if_neg (by omega), if_pos (by omega)]
    congr 1
    omega
  · intro i hi
    simp only [Bytes, Slice.toList]
    by_cases hl : i < w.Memory.len
    · rw [List.getElem?_take_of_lt hl, List.getElem?_take_of_lt hl,
        getElem?_splice _ _ _ _ harr]
      by_cases h1 : i < off
      · rw [if_pos h1]
      · rw [if_neg h1, if_neg (by omega)]
    · rw [List.getElem?_eq_none (by rw [List.length_take]; omega),
        List.getElem?_eq_none (by rw [List.length_take]; omega)]

/-- C7 on the writer of `NewWriter(4)` after `Alloc(4)`: `WriteAt(0, [1,2,3,4])`
gives `Bytes() == [1,2,3,4]`. -/
theorem writeAt_within_length_witness :
    NewWriter (exactFit .w64) 4 = some ⟨⟨[0, 0, 0, 0], 0⟩, false⟩ ∧
    Alloc (exactFit .w64) ⟨⟨[0, 0, 0, 0], 0⟩, false⟩ 4
      = some ((0, none), ⟨⟨[0, 0, 0, 0], 4⟩, false⟩) ∧
    (WriteAt ⟨⟨[0, 0, 0, 0], 4⟩, false⟩ 0 [1, 2, 3, 4]).map (fun w => (Bytes w).1.toList)
      = some [1, 2, 3, 4] ∧
    ∃ w1, WriteAt ⟨⟨[0, 0, 0, 0], 4⟩, false⟩ 0 [1, 2, 3, 4] = some w1 ∧
      (Bytes w1).1.len = (Bytes (⟨⟨[0, 0, 0, 0], 4⟩, false⟩ : Writer)).1.len ∧
      (Bytes w1).1.toList.length
        = (Bytes (⟨⟨[0, 0, 0, 0], 4⟩, false⟩ : Writer)).1.toList.length ∧
      (∀ i, i < [(1 : UInt8), 2, 3, 4].length →
        (Bytes w1).1.toList[0 + i]? = [(1 : UInt8), 2, 3, 4][i]?) ∧
      (∀ i, i < 0 ∨ 0 + [(1 : UInt8), 2, 3, 4].length ≤ i →
        (Bytes w1).1.toList[i]?
          = (Bytes (⟨⟨[0, 0, 0, 0], 4⟩, false⟩ : Writer)).1.toList[i]?) :=
  ⟨by decide, by decide, by decide,
   writeAt_within_length ⟨⟨[0, 0, 0, 0], 4⟩, false⟩ 0 [1, 2, 3, 4] (by decide) (by decide)⟩

/-- C8: from a writer just made by `NewWriter` or just reset, after any sequence
of `Alloc`, `WriteAt` and `Bytes` calls that returned (no `Reset` among them)
and whose `Alloc` calls with a nil error have sizes that sum to less than
`2^bits`, `Bytes()` is the region `[0, length)` of the storage, its length is
that sum, and `Bytes()` leaves the writer as it is. -/
theorem bytes_length_is_allocated (P : Platform) (w0 w w1 : Writer) (c : Int)
    (ops : List Op) (tr : List (Op × Ret))
    (hfresh : NewWriter P c = some w ∨ (w0.WF P.word ∧ Reset w0 = some w))
    (hnoreset : Op.reset ∉ ops)
    (hrun : run P w ops = some (tr, w1))
    (hsum : allocated tr < uintMod P.word) :
    (Bytes w1).1.toList = w1.Memory.arr.take w1.Memory.len ∧
    (Bytes w1).1.len = allocated tr ∧
    (Bytes w1).1.toList.length = allocated tr ∧
    (Bytes w1).2 = w1 ∧
    step P w1 Op.bytes = some (Ret.bytes w1.Memory, w1) := by
  obtain ⟨hw, hlen⟩ := fresh_empty P w0 w c hfresh
  obtain ⟨hw1, hl1⟩ := run_length P ops w w1 tr hw hnoreset hrun (by rw [hlen]; omega)
  rw [hlen, Nat.zero_add] at hl1
  refine ⟨rfl, hl1, ?_, rfl, rfl⟩
  have h1 : w1.Memory.len ≤ w1.Memory.arr.length := hw1.1
  simp only [Bytes, Slice.toList, List.length_take, hl1] at h1 ⊢
  omega

/-- C8 on the writer of `NewWriter(4)`: `Alloc(4)`, `WriteAt(0, [1,2,3,4])`,
`Bytes()`, `Alloc(4)`, `WriteAt(6, [9])` leave 8 bytes in `Bytes()`. -/
theorem bytes_length_is_allocated_witness :
    run (doubling .w64) ⟨⟨[0, 0, 0, 0], 0⟩, false⟩
        [Op.alloc 4, Op.writeAt 0 [1, 2, 3, 4], Op.bytes, Op.alloc 4, Op.writeAt 6 [9]]
      = some ([(Op.alloc 4, Ret.alloc 0 none), (Op.writeAt 0 [1, 2, 3, 4], Ret.writeAt),
          (Op.bytes, Ret.bytes ⟨[1, 2, 3, 4], 4⟩), (Op.alloc 4, Ret.alloc 4 none),
          (Op.writeAt 6 [9], Ret.writeAt)],
          ⟨⟨[1, 2, 3, 4, 0, 0, 9, 0], 8⟩, false⟩) ∧
    ((Bytes (⟨⟨[1, 2, 3, 4, 0, 0, 9, 0], 8⟩, false⟩ : Writer)).1.toList
        = (⟨⟨[1, 2, 3, 4, 0, 0, 9, 0], 8⟩, false⟩ : Writer).Memory.arr.take
            (⟨⟨[1, 2, 3, 4, 0, 0, 9, 0], 8⟩, false⟩ : Writer).Memory.len ∧
      (Bytes (⟨⟨[1, 2, 3, 4, 0, 0, 9, 0], 8⟩, false⟩ : Writer)).1.len
        = allocated [(Op.alloc 4, Ret.alloc 0 none),
            (Op.writeAt 0 [1, 2, 3, 4], Ret.writeAt),
            (Op.bytes, Ret.bytes ⟨[1, 2, 3, 4], 4⟩), (Op.alloc 4, Ret.alloc 4 none),
            (Op.writeAt 6 [9], Ret.writeAt)] ∧
      (Bytes (⟨⟨[1, 2, 3, 4, 0, 0, 9, 0], 8⟩, false⟩ : Writer)).1.toList.length
        = allocated [(Op.alloc 4, Ret.alloc 0 none),
            (Op.writeAt 0 [1, 2, 3, 4], Ret.writeAt),
            (Op.bytes, Ret.bytes ⟨[1, 2, 3, 4], 4⟩), (Op.alloc 4, Ret.alloc 4 none),
            (Op.writeAt 6 [9], Ret.writeAt)] ∧
      (Bytes (⟨⟨[1, 2, 3, 4, 0, 0, 9, 0], 8⟩, false⟩ : Writer)).2
        = ⟨⟨[1, 2, 3, 4, 0, 0, 9, 0], 8⟩, false⟩ ∧
      step (doubling .w64) ⟨⟨[1, 2, 3, 4, 0, 0, 9, 0], 8⟩, false⟩ Op.bytes
        = some (Ret.bytes (⟨⟨[1, 2, 3, 4, 0, 0, 9, 0], 8⟩, false⟩ : Writer).Memory,
            ⟨⟨[1, 2, 3, 4, 0, 0, 9, 0], 8⟩, false⟩)) :=
  ⟨by decide,
   bytes_length_is_allocated (doubling .w64) ⟨⟨[], 0⟩, false⟩
    ⟨⟨[0, 0, 0, 0], 0⟩, false⟩ ⟨⟨[1, 2, 3, 4, 0, 0, 9, 0], 8⟩, false⟩ 4
    [Op.alloc 4, Op.writeAt 0 [1, 2, 3, 4], Op.bytes, Op.alloc 4, Op.writeAt 6 [9]]
    [(Op.alloc 4, Ret.alloc 0 none), (Op.writeAt 0 [1, 2, 3, 4], Ret.writeAt),
      (Op.bytes, Ret.bytes ⟨[1, 2, 3, 4], 4⟩), (Op.alloc 4, Ret.alloc 4 none),
      (Op.writeAt 6 [9], Ret.writeAt)]
    (Or.inl (by decide)) (by decide) (by decide) (by decide)⟩

/-- C9: `Reset` returns on every writer, growable or fixed; afterwards the
length is 0 and `Bytes()` is empty, and the capacity, the backing array and the
mode are what they were. -/
theorem reset_keeps_storage (w : Writer) :
    ∃ w1, Reset w = some w1 ∧ w1.Memory.len = 0 ∧ (Bytes w1).1.toList = [] ∧
      w1.Memory.cap = w.Memory.cap ∧ w1.Memory.arr = w.Memory.arr ∧
      w1.isFixed = w.isFixed :=
  ⟨_, Reset_some w, rfl, by simp only [Bytes, Slice.toList, List.take_zero], rfl, rfl, rfl⟩

/-- C10 fails on the code: the writer of `NewWriter(4)` after `Alloc(3)` has
length 3; asked on 64 bits for `2^64 - 2` bytes, `Alloc` returns the offset 3
with a nil error and leaves the length 1, less than 3. -/
theorem alloc_wrapped_sum_shrinks_length :
    NewWriter (doubling .w64) 4 = some ⟨⟨[0, 0, 0, 0], 0⟩, false⟩ ∧
    Alloc (doubling .w64) ⟨⟨[0, 0, 0, 0], 0⟩, false⟩ 3
      = some ((0, none), ⟨⟨[0, 0, 0, 0], 3⟩, false⟩) ∧
    2 ^ 64 - 2 < uintMod .w64 ∧
    Alloc (doubling .w64) ⟨⟨[0, 0, 0, 0], 3⟩, false⟩ (2 ^ 64 - 2)
      = some ((3, none), ⟨⟨[0, 0, 0, 0], 1⟩, false⟩) ∧
    (⟨⟨[0, 0, 0, 0], 1⟩, false⟩ : Writer).Memory.len
      < (⟨⟨[0, 0, 0, 0], 3⟩, false⟩ : Writer).Memory.len := by
  refine ⟨by decide, by decide, by decide, by decide, by decide⟩

/-- C11 fails as stated: `NewFixedWriter` over a 4-byte buffer (length 4,
capacity 4) gives a writer of length 4, not an empty one, and its `Alloc(4)`
returns `ErrOutOfMemory`; over a buffer of length 4 with capacity 8 the
capacity of the writer is 8. -/
theorem fixed_writer_over_full_buffer_is_full :
    (⟨[0, 0, 0, 0], 4⟩ : Slice).WF .w64 ∧
    (NewFixedWriter ⟨[0, 0, 0, 0], 4⟩).Memory.len = 4 ∧
    Alloc (exactFit .w64) (NewFixedWriter ⟨[0, 0, 0, 0], 4⟩) 4
      = some ((0, some Error.ErrOutOfMemory), NewFixedWriter ⟨[0, 0, 0, 0], 4⟩) ∧
    (⟨[0, 0, 0, 0, 0, 0, 0, 0], 4⟩ : Slice).WF .w64 ∧
    (NewFixedWriter ⟨[0, 0, 0, 0, 0, 0, 0, 0], 4⟩).Memory.cap = 8 := by
  refine ⟨by decide, by decide, by decide, by decide, by decide⟩

/-- C11 as amended: `NewFixedWriter(mem)` is a fixed writer with the length and
the capacity of `mem`; `Alloc(cap(mem) - len(mem))` returns the offset
`len(mem)` with a nil error, and a following `Alloc(1)` returns
`ErrOutOfMemory` and leaves the writer as it is. So for a buffer of length 0 and
capacity `L`, `Alloc(L)` returns the offset 0 and the next `Alloc(1)` fails. -/
theorem fixed_writer_fills_to_capacity (P : Platform) (mem : Slice) (hm : mem.WF P.word) :
    (NewFixedWriter mem).isFixed = true ∧
    (NewFixedWriter mem).Memory.len = mem.len ∧
    (NewFixedWriter mem).Memory.cap = mem.cap ∧
    Alloc P (NewFixedWriter mem) (mem.cap - mem.len)
      = some ((mem.len, none), ⟨⟨mem.arr, mem.cap⟩, true⟩) ∧
    Alloc P ⟨⟨mem.arr, mem.cap⟩, true⟩ 1
      = some ((0, some Error.ErrOutOfMemory), ⟨⟨mem.arr, mem.cap⟩, true⟩) ∧
    (mem.len = 0 → Alloc P (NewFixedWriter mem) mem.cap
      = some ((0, none), ⟨⟨mem.arr, mem.cap⟩, true⟩)) := by
  have hM := maxInt_succ_lt_uintMod P.word
  have hlen : mem.len ≤ mem.cap := hm.1
  have hcap : mem.cap ≤ maxInt P.word := hm.2
  have hw : (NewFixedWriter mem).WF P.word := hm
  have hsum : mem.len + (mem.cap - mem.len) = mem.cap := by omega
  have h1 : Alloc P (NewFixedWriter mem) (mem.cap - mem.len)
      = some ((mem.len, none), ⟨⟨mem.arr, mem.cap⟩, true⟩) := by
    rw [Alloc_fits P (NewFixedWriter mem) (mem.cap - mem.len) hw
      (by show mem.len + (mem.cap - mem.len) ≤ mem.cap; omega)]
    simp only [NewFixedWriter, hsum]
  have hw2 : (⟨⟨mem.arr, mem.cap⟩, true⟩ : Writer).WF P.word := ⟨Nat.le_refl _, hcap⟩
  have h2 := Alloc_fixed_full P ⟨⟨mem.arr, mem.cap⟩, true⟩ 1 hw2 rfl
    (by show mem.arr.length < mem.cap + 1; unfold Slice.cap; omega)
    (by show mem.cap + 1 < uintMod P.word; omega)
  refine ⟨rfl, rfl, rfl, h1, h2, ?_⟩
  intro h0
  rw [h0, Nat.sub_zero] at h1
  exact h1

/-- C11 as amended, at a buffer of length 0 and capacity 4: `Alloc(4)` returns
`(0, nil)`, then `Alloc(1)` returns `ErrOutOfMemory`. -/
theorem fixed_writer_fills_to_capacity_witness :
    (⟨[0, 0, 0, 0], 0⟩ : Slice).WF .w64 ∧
    Alloc (exactFit .w64) (NewFixedWriter ⟨[0, 0, 0, 0], 0⟩) 4
      = some ((0, none), ⟨⟨[0, 0, 0, 0], 4⟩, true⟩) ∧
    Alloc (exactFit .w64) ⟨⟨[0, 0, 0, 0], 4⟩, true⟩ 1
      = some ((0, some Error.ErrOutOfMemory), ⟨⟨[0, 0, 0, 0], 4⟩, true⟩) :=
  ⟨by decide,
   (fixed_writer_fills_to_capacity (exactFit .w64) ⟨[0, 0, 0, 0], 0⟩ (by decide)).2.2.2.2.2 rfl,
   (fixed_writer_fills_to_capacity (exactFit .w64) ⟨[0, 0, 0, 0], 0⟩ (by decide)).2.2.2.2.1⟩

/-- C12: from the writer of `NewWriter` or of `NewFixedWriter` (over a buffer Go
can hold), after any sequence of `Alloc`, `WriteAt`, `Reset` and `Bytes` calls
that returned, the length is at most the capacity. -/
theorem length_within_capacity (P : Platform) (c : Int) (mem : Slice) (w w1 : Writer)
    (ops : List Op) (tr : List (Op × Ret))
    (hstart : NewWriter P c = some w ∨ (mem.WF P.word ∧ NewFixedWriter mem = w))
    (hrun : run P w ops = some (tr, w1)) :
    w1.Memory.len ≤ w1.Memory.cap := by
  have hw : w.WF P.word := by
    rcases hstart with h | ⟨hm, h⟩
    · exact (NewWriter_some P c w h).2.2
    · rw [← h]; exact hm
  exact (run_keeps P ops w w1 tr hw hrun).1.1

/-- C12 on the writer of `NewWriter(2)` on 64 bits: `Alloc(3)` (which grows),
`WriteAt(1, [7, 8, 9])`, `Alloc(2^64 - 1)`, `Bytes()`, `Reset()`, `Alloc(1)`
end with length 1 in a capacity of 4. -/
theorem length_within_capacity_witness :
    run (doubling .w64) ⟨⟨[0, 0], 0⟩, false⟩
        [Op.alloc 3, Op.writeAt 1 [7, 8, 9], Op.alloc (2 ^ 64 - 1), Op.bytes, Op.reset,
          Op.alloc 1]
      = some ([(Op.alloc 3, Ret.alloc 0 none), (Op.writeAt 1 [7, 8, 9], Ret.writeAt),
          (Op.alloc (2 ^ 64 - 1), Ret.alloc 3 none), (Op.bytes, Ret.bytes ⟨[0, 7, 8, 0], 2⟩),
          (Op.reset, Ret.reset), (Op.alloc 1, Ret.alloc 0 none)],
          ⟨⟨[0, 7, 8, 0], 1⟩, false⟩) ∧
    (⟨⟨[0, 7, 8, 0], 1⟩, false⟩ : Writer).Memory.len
      ≤ (⟨⟨[0, 7, 8, 0], 1⟩, false⟩ : Writer).Memory.cap :=
  ⟨by decide,
   length_within_capacity (doubling .w64) 2 Slice.nil ⟨⟨[0, 0], 0⟩, false⟩
    ⟨⟨[0, 7, 8, 0], 1⟩, false⟩
    [Op.alloc 3, Op.writeAt 1 [7, 8, 9], Op.alloc (2 ^ 64 - 1), Op.bytes, Op.reset,
      Op.alloc 1]
    [(Op.alloc 3, Ret.alloc 0 none), (Op.writeAt 1 [7, 8, 9], Ret.writeAt),
      (Op.alloc (2 ^ 64 - 1), Ret.alloc 3 none), (Op.bytes, Ret.bytes ⟨[0, 7, 8, 0], 2⟩),
      (Op.reset, Ret.reset), (Op.alloc 1, Ret.alloc 0 none)]
    (Or.inl (by decide)) (by decide)⟩

/-- C13: along any sequence of `Alloc`, `WriteAt`, `Reset` and `Bytes` calls that
returned, the mode of the writer stays what it was; and from the writer of
`NewFixedWriter(mem)` the writer stays fixed and its capacity stays the capacity
of `mem`, whether the `Alloc` calls returned an error or not. -/
theorem mode_and_fixed_capacity_kept (P : Platform) (mem : Slice) (w w1 : Writer)
    (ops : List Op) (tr : List (Op × Ret))
    (hw : w.WF P.word) (hrun : run P w ops = some (tr, w1)) :
    w1.isFixed = w.isFixed ∧
    (w = NewFixedWriter mem → w1.isFixed = true ∧ w1.Memory.cap = mem.cap) := by
  obtain ⟨_, h2, h3⟩ := run_keeps P ops w w1 tr hw hrun
  refine ⟨h2, fun hm => ?_⟩
  subst hm
  exact ⟨h2, h3 rfl⟩

/-- C13 on the fixed writer over a buffer of length 0 and capacity 4:
`Alloc(3)`, `Alloc(2)` (which fails), `WriteAt(0, [5, 6, 7, 8])`, `Bytes()`,
`Reset()`, `Alloc(4)` end with a fixed writer of capacity 4. -/
theorem mode_and_fixed_capacity_kept_witness :
    (NewFixedWriter ⟨[0, 0, 0, 0], 0⟩).WF .w64 ∧
    run (doubling .w64) (NewFixedWriter ⟨[0, 0, 0, 0], 0⟩)
        [Op.alloc 3, Op.alloc 2, Op.writeAt 0 [5, 6, 7, 8], Op.bytes, Op.reset, Op.alloc 4]
      = some ([(Op.alloc 3, Ret.alloc 0 none),
          (Op.alloc 2, Ret.alloc 0 (some Error.ErrOutOfMemory)),
          (Op.writeAt 0 [5, 6, 7, 8], Ret.writeAt), (Op.bytes, Ret.bytes ⟨[5, 6, 7, 0], 3⟩),
          (Op.reset, Ret.reset), (Op.alloc 4, Ret.alloc 0 none)],
          ⟨⟨[5, 6, 7, 0], 4⟩, true⟩) ∧
    (⟨⟨[5, 6, 7, 0], 4⟩, true⟩ : Writer).isFixed
      = (NewFixedWriter ⟨[0, 0, 0, 0], 0⟩).isFixed ∧
    (NewFixedWriter ⟨[0, 0, 0, 0], 0⟩ = NewFixedWriter ⟨[0, 0, 0, 0], 0⟩ →
      (⟨⟨[5, 6, 7, 0], 4⟩, true⟩ : Writer).isFixed = true ∧
      (⟨⟨[5, 6, 7, 0], 4⟩, true⟩ : Writer).Memory.cap = (⟨[0, 0, 0, 0], 0⟩ : Slice).cap) :=
  ⟨by decide, by decide,
   mode_and_fixed_capacity_kept (doubling .w64) ⟨[0, 0, 0, 0], 0⟩
    (NewFixedWriter ⟨[0, 0, 0, 0], 0⟩) ⟨⟨[5, 6, 7, 0], 4⟩, true⟩
    [Op.alloc 3, Op.alloc 2, Op.writeAt 0 [5, 6, 7, 8], Op.bytes, Op.reset, Op.alloc 4]
    [(Op.alloc 3, Ret.alloc 0 none),
      (Op.alloc 2, Ret.alloc 0 (some Error.ErrOutOfMemory)),
      (Op.writeAt 0 [5, 6, 7, 8], Ret.writeAt), (Op.bytes, Ret.bytes ⟨[5, 6, 7, 0], 3⟩),
      (Op.reset, Ret.reset), (Op.alloc 4, Ret.alloc 0 none)]
    (by decide) (by decide)⟩

/-- C14 fails as stated: on 64 bits `NewWriter(2^62)`, with a capacity that is
an `int` and not negative, does not return a writer: `make` panics, the
capacity is beyond the runtime's allocation limit `2^48`. -/
theorem newWriter_beyond_limit_panics :
    (0 : Int) ≤ 4611686018427387904 ∧
    (4611686018427387904 : Int) ≤ (maxInt .w64 : Int) ∧
    (4611686018427387904 : Int) = 2 ^ 62 ∧
    NewWriter (exactFit .w64) 4611686018427387904 = none := by
  refine ⟨by decide, by decide, by decide, by decide⟩

/-- C14 as amended: for every capacity `c >= 0` (an `int`) that is at most the
runtime's allocation limit, `NewWriter(c)` returns a growable writer of length
0 and capacity `c`, whose `Bytes()` is empty; for a capacity beyond that limit
`NewWriter(c)` panics. -/
theorem newWriter_within_limit (P : Platform) (c : Int) (h0 : 0 ≤ c)
    (hc : c ≤ (maxInt P.word : Int)) :
    (c ≤ (P.maxAlloc : Int) →
      ∃ w, NewWriter P c = some w ∧ w.isFixed = false ∧ w.Memory.len = 0 ∧
        (w.Memory.cap : Int) = c ∧ (Bytes w).1.toList = []) ∧
    ((P.maxAlloc : Int) < c → NewWriter P c = none) := by
  have hn : c.toNat ≤ maxInt P.word := by omega
  constructor
  · intro hA
    have hn2 : c.toNat ≤ P.maxAlloc := by omega
    refine ⟨{ Memory := ⟨List.replicate c.toNat 0, 0⟩, isFixed := false }, ?_, rfl, rfl, ?_, ?_⟩
    · unfold NewWriter Slice.make
      rw [if_neg (by omega), if_pos ⟨Nat.zero_le _, hn, hn2⟩]
      rfl
    · simp only [Slice.cap, List.length_replicate]
      omega
    · simp only [Bytes, Slice.toList, List.take_zero]
  · intro hA
    have hn2 : ¬ c.toNat ≤ P.maxAlloc := by omega
    unfold NewWriter Slice.make
    rw [if_neg (by omega), if_neg (fun h => hn2 h.2.2)]
    rfl

/-- C14 as amended, at the capacities 4 and 0 on 64 bits. -/
theorem newWriter_within_limit_witness :
    NewWriter (exactFit .w64) 4 = some ⟨⟨[0, 0, 0, 0], 0⟩, false⟩ ∧
    NewWriter (exactFit .w64) 0 = some ⟨⟨[], 0⟩, false⟩ ∧
    ∃ w, NewWriter (exactFit .w64) 4 = some w ∧ w.isFixed = false ∧ w.Memory.len = 0 ∧
      (w.Memory.cap : Int) = 4 ∧ (Bytes w).1.toList = [] :=
  ⟨by decide, by decide,
   (newWriter_within_limit (exactFit .w64) 4 (by decide) (by decide)).1 (by decide)⟩

/-- C15 fails as stated: on the writer of `NewWriter(4)`, `Alloc(0)` returns the
offset 0 and the following `Alloc(1)` returns the offset 0 again, which is not
greater. -/
theorem zero_size_alloc_repeats_offset :
    NewWriter (exactFit .w64) 4 = some ⟨⟨[0, 0, 0, 0], 0⟩, false⟩ ∧
    Alloc (exactFit .w64) ⟨⟨[0, 0, 0, 0], 0⟩, false⟩ 0
      = some ((0, none), ⟨⟨[0, 0, 0, 0], 0⟩, false⟩) ∧
    Alloc (exactFit .w64) ⟨⟨[0, 0, 0, 0], 0⟩, false⟩ 1
      = some ((0, none), ⟨⟨[0, 0, 0, 0], 1⟩, false⟩) ∧
    ¬ ((0 : Nat) < 0) := by
  refine ⟨by decide, by decide, by decide, by decide⟩

/-- C15 as amended: for two consecutive `Alloc` calls `Alloc(n1)` then
`Alloc(n2)` that both return a nil error, with the length before the first call
plus `n1` fitting in the word, the second offset is the first offset plus `n1`;
so it is greater than the first when `n1 > 0`, and equal to it when `n1 = 0`. -/
theorem second_offset_is_first_plus_size (P : Platform) (w w1 w2 : Writer)
    (n1 n2 o1 o2 : Nat) (hw : w.WF P.word)
    (hlt : w.Memory.len + n1 < uintMod P.word)
    (h1 : Alloc P w n1 = some ((o1, none), w1))
    (h2 : Alloc P w1 n2 = some ((o2, none), w2)) :
    o2 = o1 + n1 ∧ (0 < n1 → o1 < o2) ∧ (n1 = 0 → o2 = o1) := by
  obtain ⟨e1, e2, hw1, _, _⟩ := Alloc_nil_of_lt P w w1 n1 o1 hw hlt h1
  have e3 : o2 = w1.Memory.len := (Alloc_keeps P w1 w2 n2 (o2, none) hw1 h2).2.2.2 rfl
  have e4 : o2 = o1 + n1 := by rw [e3, e2, e1]
  exact ⟨e4, fun h => by omega, fun h => by omega⟩

/-- C15 as amended, on the writer of `NewWriter(4)`: `Alloc(3)` returns 0, then
`Alloc(5)` returns 3. -/
theorem second_offset_is_first_plus_size_witness :
    (⟨⟨[0, 0, 0, 0], 0⟩, false⟩ : Writer).WF .w64 ∧
    Alloc (doubling .w64) ⟨⟨[0, 0, 0, 0], 0⟩, false⟩ 3
      = some ((0, none), ⟨⟨[0, 0, 0, 0], 3⟩, false⟩) ∧
    Alloc (doubling .w64) ⟨⟨[0, 0, 0, 0], 3⟩, false⟩ 5
      = some ((3, none), ⟨⟨[0, 0, 0, 0, 0, 0, 0, 0], 8⟩, false⟩) ∧
    (3 = 0 + 3 ∧ (0 < 3 → 0 < 3) ∧ (3 = 0 → 3 = 0)) :=
  ⟨by decide, by decide, by decide,
   second_offset_is_first_plus_size (doubling .w64) ⟨⟨[0, 0, 0, 0], 0⟩, false⟩
    ⟨⟨[0, 0, 0, 0], 3⟩, false⟩ ⟨⟨[0, 0, 0, 0, 0, 0, 0, 0], 8⟩, false⟩ 3 5 0 3
    (by decide) (by decide) (by decide) (by decide)⟩

/-- C16: `Reset` on a writer of length 0 returns that writer unchanged, and
`Reset` twice is `Reset` once. -/
theorem reset_idempotent (w : Writer) :
    (w.Memory.len = 0 → Reset w = some w) ∧ (Reset w).bind Reset = Reset w := by
  constructor
  · intro h
    unfold Reset
    rw [if_pos h]
  · rw [Reset_some w]
    exact Reset_some _

/-- C16 at an empty writer with stale bytes in its storage, and at a writer of
length 2. -/
theorem reset_idempotent_witness :
    Reset ⟨⟨[1, 2, 3, 4], 0⟩, true⟩ = some ⟨⟨[1, 2, 3, 4], 0⟩, true⟩ ∧
    (Reset ⟨⟨[1, 2, 3, 4], 2⟩, false⟩).bind Reset = Reset ⟨⟨[1, 2, 3, 4], 2⟩, false⟩ :=
  ⟨(reset_idempotent ⟨⟨[1, 2, 3, 4], 0⟩, true⟩).1 rfl,
   (reset_idempotent ⟨⟨[1, 2, 3, 4], 2⟩, false⟩).2⟩

/-- C17: an `Alloc(n)` that returns a nil error, with the old length plus `n`
fitting in the word, leaves the first old-length bytes of `Bytes()` as they
were; and when the old length plus `n` exceeds the capacity (the writer grows),
`Bytes()` afterwards is the old `Bytes()` followed by `n` zero bytes. -/
theorem alloc_keeps_old_bytes (P : Platform) (w w1 : Writer) (n off : Nat)
    (hw : w.WF P.word) (hlt : w.Memory.len + n < uintMod P.word)
    (h : Alloc P w n = some ((off, none), w1)) :
    (Bytes w1).1.toList.take w.Memory.len = (Bytes w).1.toList ∧
    (w.Memory.cap < w.Memory.len + n →
      (Bytes w1).1.toList = (Bytes w).1.toList ++ List.replicate n 0) := by
  refine ⟨(Alloc_nil_of_lt P w w1 n off hw hlt h).2.2.2.2, ?_⟩
  intro hgrow
  have hlen : w.Memory.len ≤ w.Memory.arr.length := hw.1
  cases hf : w.isFixed with
  | true =>
    rw [Alloc_fixed_full P w n hw hf hgrow hlt] at h
    simp at h
  | false =>
    rcases Alloc_grow_cases P w n hw hf hgrow hlt with ⟨_, _, hg⟩ | hnone
    · rw [hg] at h
      simp only [Option.some.injEq, Prod.mk.injEq, and_true] at h
      obtain ⟨_, h2⟩ := h
      subst h2
      have htl : (w.Memory.toList ++ List.replicate n 0).length = w.Memory.len + n := by
        simp only [Slice.toList, List.length_append, List.length_take, List.length_replicate]
        omega
      simp only [Bytes]
      show List.take (w.Memory.len + n) (w.Memory.toList ++ List.replicate n 0 ++ _)
        = w.Memory.toList ++ List.replicate n 0
      rw [← htl, List.take_left']
      rfl
    · rw [hnone] at h
      simp at h

/-- C17 on the writer that holds the bytes 1, 2, 3, 4 in a capacity of 4:
`Alloc(4)` gives `Bytes() == [1,2,3,4,0,0,0,0]`. -/
theorem alloc_keeps_old_bytes_witness :
    (⟨⟨[1, 2, 3, 4], 4⟩, false⟩ : Writer).WF .w64 ∧
    (WriteAt ⟨⟨[0, 0, 0, 0], 4⟩, false⟩ 0 [1, 2, 3, 4]) = some ⟨⟨[1, 2, 3, 4], 4⟩, false⟩ ∧
    Alloc (doubling .w64) ⟨⟨[1, 2, 3, 4], 4⟩, false⟩ 4
      = some ((4, none), ⟨⟨[1, 2, 3, 4, 0, 0, 0, 0], 8⟩, false⟩) ∧
    (Bytes (⟨⟨[1, 2, 3, 4, 0, 0, 0, 0], 8⟩, false⟩ : Writer)).1.toList
      = [1, 2, 3, 4, 0, 0, 0, 0] ∧
    ((Bytes (⟨⟨[1, 2, 3, 4, 0, 0, 0, 0], 8⟩, false⟩ : Writer)).1.toList.take
        (⟨⟨[1, 2, 3, 4], 4⟩, false⟩ : Writer).Memory.len
        = (Bytes (⟨⟨[1, 2, 3, 4], 4⟩, false⟩ : Writer)).1.toList ∧
      ((⟨⟨[1, 2, 3, 4], 4⟩, false⟩ : Writer).Memory.cap
          < (⟨⟨[1, 2, 3, 4], 4⟩, false⟩ : Writer).Memory.len + 4 →
        (Bytes (⟨⟨[1, 2, 3, 4, 0, 0, 0, 0], 8⟩, false⟩ : Writer)).1.toList
          = (Bytes (⟨⟨[1, 2, 3, 4], 4⟩, false⟩ : Writer)).1.toList
            ++ List.replicate 4 0)) :=
  ⟨by decide, by decide, by decide, by decide,
   alloc_keeps_old_bytes (doubling .w64) ⟨⟨[1, 2, 3, 4], 4⟩, false⟩
    ⟨⟨[1, 2, 3, 4, 0, 0, 0, 0], 8⟩, false⟩ 4 4 (by decide) (by decide) (by decide)⟩

/-- C18: for an offset within the length and data of any length,
`WriteAt(offset, data)` returns, keeps the length, the capacity and the mode,
stores the first `min (len data) (length - offset)` bytes of `data` at `offset`
and leaves every other byte of the storage as it was, so nothing outside
`offset, ..., length-1` changes; for an offset beyond the length it panics, and
the writer it leaves behind is the writer before the call: nothing is
written. -/
theorem writeAt_copies_what_fits (w : Writer) (off : Nat) (data : List UInt8)
    (hw : w.Memory.len ≤ w.Memory.cap) :
    (off ≤ w.Memory.len →
      ∃ w1, WriteAt w off data = some w1 ∧ WriteAtOutcome w off data = Outcome.ok w1 ∧
        w1.Memory.len = w.Memory.len ∧ w1.Memory.cap = w.Memory.cap ∧
        w1.isFixed = w.isFixed ∧
        (∀ i, i < min data.length (w.Memory.len - off) →
          w1.Memory.arr[off + i]? = data[i]?) ∧
        (∀ i, i < off ∨ off + min data.length (w.Memory.len - off) ≤ i →
          w1.Memory.arr[i]? = w.Memory.arr[i]?) ∧
        (∀ i, i < off ∨ w.Memory.len ≤ i → w1.Memory.arr[i]? = w.Memory.arr[i]?)) ∧
    (w.Memory.len < off →
      WriteAt w off data = none ∧ WriteAtOutcome w off data = Outcome.panic w) := by
  refine ⟨?_, fun h => ⟨(WriteAt_eq_none_iff w off data).mpr h, ?_⟩⟩
  swap
  · have hno : ¬ off ≤ w.Memory.len := by omega
    simp only [WriteAtOutcome, Slice.dropFront, hno, if_false]
  intro hoff
  have hw2 : w.Memory.len ≤ w.Memory.arr.length := hw
  have he : WriteAt w off data = some { w with Memory :=
      ⟨copyInto w.Memory.arr off (w.Memory.len - off) data, w.Memory.len⟩ } := by
    simp only [WriteAt, Slice.dropFront, hoff, if_true]
  have hk : (data.take (min (w.Memory.len - off) data.length)).length
      = min (w.Memory.len - off) data.length := by
    rw [List.length_take]; omega
  have harr : off + (data.take (min (w.Memory.len - off) data.length)).length
      ≤ w.Memory.arr.length := by
    rw [hk]; omega
  have hget : ∀ i, (copyInto w.Memory.arr off (w.Memory.len - off) data)[i]? =
      if i < off then w.Memory.arr[i]?
      else if i < off + min (w.Memory.len - off) data.length then
        (data.take (min (w.Memory.len - off) data.length))[i - off]?
      else w.Memory.arr[i]? := by
    intro i
    have hs := getElem?_splice w.Memory.arr
      (data.take (min (w.Memory.len - off) data.length)) off i harr
    rw [hk] at hs
    exact hs
  have hother : ∀ i, i < off ∨ off + min data.length (w.Memory.len - off) ≤ i →
      (copyInto w.Memory.arr off (w.Memory.len - off) data)[i]? = w.Memory.arr[i]? := by
    intro i hi
    rw [hget i]
    by_cases h1 : i < off
    · rw [if_pos h1]
    · rw [if_neg h1, if_neg (by omega)]
  obtain ⟨w2, e1, _, e3, _⟩ := WriteAt_frame w off data hw hoff
  rw [he] at e1
  simp only [Option.some.injEq] at e1
  subst e1
  have ho : WriteAtOutcome w off data = Outcome.ok { w with Memory :=
      ⟨copyInto w.Memory.arr off (w.Memory.len - off) data, w.Memory.len⟩ } := by
    simp only [WriteAtOutcome, Slice.dropFront, hoff, if_true]
  refine ⟨_, he, ho, rfl, e3, rfl, ?_, hother, fun i hi => hother i (by omega)⟩
  intro i hi
  show (copyInto w.Memory.arr off (w.Memory.len - off) data)[off + i]? = data[i]?
  rw [hget (off + i), if_neg (by omega), if_pos (by omega)]
  rw [List.getElem?_take_of_lt (by omega)]
  congr 1
  omega

/-- C18 on a writer of length 3 over the storage 1, 2, 3, 4: `WriteAt(1,
[7, 8, 9])` stores 7 and 8 and drops 9, the byte 4 beyond the length stays; and
`WriteAt(4, [7])` panics and leaves the writer as it was. -/
theorem writeAt_copies_what_fits_witness :
    (⟨⟨[1, 2, 3, 4], 3⟩, false⟩ : Writer).Memory.len
      ≤ (⟨⟨[1, 2, 3, 4], 3⟩, false⟩ : Writer).Memory.cap ∧
    WriteAt ⟨⟨[1, 2, 3, 4], 3⟩, false⟩ 1 [7, 8, 9] = some ⟨⟨[1, 7, 8, 4], 3⟩, false⟩ ∧
    (∃ w1, WriteAt ⟨⟨[1, 2, 3, 4], 3⟩, false⟩ 1 [7, 8, 9] = some w1 ∧
      WriteAtOutcome ⟨⟨[1, 2, 3, 4], 3⟩, false⟩ 1 [7, 8, 9] = Outcome.ok w1 ∧
      w1.Memory.len = 3 ∧ w1.Memory.cap = 4) ∧
    (WriteAt ⟨⟨[1, 2, 3, 4], 3⟩, false⟩ 4 [7] = none ∧
      WriteAtOutcome ⟨⟨[1, 2, 3, 4], 3⟩, false⟩ 4 [7]
        = Outcome.panic ⟨⟨[1, 2, 3, 4], 3⟩, false⟩) :=
  ⟨by decide, by decide,
   (((writeAt_copies_what_fits ⟨⟨[1, 2, 3, 4], 3⟩, false⟩ 1 [7, 8, 9] (by decide)).1
      (by decide)).imp fun _ h => ⟨h.1, h.2.1, h.2.2.1, h.2.2.2.1⟩),
   (writeAt_copies_what_fits ⟨⟨[1, 2, 3, 4], 3⟩, false⟩ 4 [7] (by decide)).2 (by decide)⟩

/-- C19: `Reset` does not clear the storage. After `Reset`, `Alloc(n)` with `n`
at most the old length returns the offset 0 with a nil error and `Bytes()` is
then the first `n` bytes of the old `Bytes()`. Bytes obtained through growth
are zero: whenever `Alloc(n)` after `Reset`, with `n` beyond the capacity,
returns a nil error, `Bytes()` is then `n` zero bytes; and it does return, with
the offset 0, on a growable writer when `n` is an `int` and the array `append`
allocates for it is within the runtime's allocation limit. -/
theorem reset_then_alloc_shows_old_bytes (P : Platform) (w : Writer) (n : Nat)
    (hw : w.WF P.word) :
    (n ≤ w.Memory.len →
      ∃ w1 w2, Reset w = some w1 ∧ Alloc P w1 n = some ((0, none), w2) ∧
        (Bytes w2).1.toList = (Bytes w).1.toList.take n) ∧
    (∀ w1 w2 off, Reset w = some w1 → w.Memory.cap < n → n < uintMod P.word →
      Alloc P w1 n = some ((off, none), w2) →
        (Bytes w2).1.toList = List.replicate n 0) ∧
    (w.isFixed = false → w.Memory.cap < n → n ≤ maxInt P.word →
      P.growCap w.Memory.cap n ≤ P.maxAlloc →
      ∃ w1 w2, Reset w = some w1 ∧ Alloc P w1 n = some ((0, none), w2) ∧
        (Bytes w2).1.toList = List.replicate n 0) := by
  have hlen : w.Memory.len ≤ w.Memory.arr.length := hw.1
  have hw1 : ({ Memory := ⟨w.Memory.arr, 0⟩, isFixed := w.isFixed } : Writer).WF P.word :=
    ⟨Nat.zero_le _, hw.2⟩
  have hzero : ∀ w2 off, w.Memory.cap < n → n < uintMod P.word →
      Alloc P { Memory := ⟨w.Memory.arr, 0⟩, isFixed := w.isFixed } n
        = some ((off, none), w2) →
      (Bytes w2).1.toList = List.replicate n 0 := by
    intro w2 off hcap hn ha
    have hb := Alloc_grown_bytes P _ w2 n off hw1
      (by show 0 + n < uintMod P.word; omega)
      (by show w.Memory.arr.length < 0 + n; unfold Slice.cap at hcap; omega) ha
    show w2.Memory.toList = List.replicate n 0
    rw [hb]
    simp only [Slice.toList, List.take_zero, List.nil_append]
  refine ⟨?_, ?_, ?_⟩
  · intro hn
    have ha := Alloc_fits P { Memory := ⟨w.Memory.arr, 0⟩, isFixed := w.isFixed } n hw1
      (by show 0 + n ≤ w.Memory.arr.length; omega)
    refine ⟨_, _, Reset_some w, ha, ?_⟩
    simp only [Bytes, Slice.toList, List.take_take, Nat.zero_add]
    rw [Nat.min_eq_left hn]
  · intro w1 w2 off hr hcap hn ha
    rw [Reset_some w] at hr
    simp only [Option.some.injEq] at hr
    subst hr
    exact hzero w2 off hcap hn ha
  · intro hf hcap hmax hA
    have hM := maxInt_lt_uintMod P.word
    have ha := Alloc_grow P { Memory := ⟨w.Memory.arr, 0⟩, isFixed := w.isFixed } n hw1 hf
      (by show w.Memory.arr.length < 0 + n; unfold Slice.cap at hcap; omega)
      (by show 0 + n ≤ maxInt P.word; omega)
      (by show P.growCap w.Memory.arr.length (0 + n) ≤ P.maxAlloc
          rw [Nat.zero_add]; exact hA)
    exact ⟨_, _, Reset_some w, ha, hzero _ _ hcap (by omega) ha⟩

/-- C19 on a growable writer that holds 1, 2, 3 in a capacity of 4: after
`Reset`, `Alloc(2)` shows 1, 2 again, and `Alloc(5)` grows to five zero bytes. -/
theorem reset_then_alloc_shows_old_bytes_witness :
    (⟨⟨[1, 2, 3, 0], 3⟩, false⟩ : Writer).WF .w64 ∧
    Reset ⟨⟨[1, 2, 3, 0], 3⟩, false⟩ = some ⟨⟨[1, 2, 3, 0], 0⟩, false⟩ ∧
    (Alloc (doubling .w64) ⟨⟨[1, 2, 3, 0], 0⟩, false⟩ 2).map (fun r => (Bytes r.2).1.toList)
      = some [1, 2] ∧
    (Alloc (doubling .w64) ⟨⟨[1, 2, 3, 0], 0⟩, false⟩ 5).map (fun r => (Bytes r.2).1.toList)
      = some [0, 0, 0, 0, 0] ∧
    (∃ w1 w2, Reset ⟨⟨[1, 2, 3, 0], 3⟩, false⟩ = some w1 ∧
      Alloc (doubling .w64) w1 2 = some ((0, none), w2) ∧
      (Bytes w2).1.toList = (Bytes (⟨⟨[1, 2, 3, 0], 3⟩, false⟩ : Writer)).1.toList.take 2) ∧
    (Bytes (⟨⟨[0, 0, 0, 0, 0, 0, 0, 0], 5⟩, false⟩ : Writer)).1.toList = List.replicate 5 0 ∧
    (∃ w1 w2, Reset ⟨⟨[1, 2, 3, 0], 3⟩, false⟩ = some w1 ∧
      Alloc (doubling .w64) w1 5 = some ((0, none), w2) ∧
      (Bytes w2).1.toList = List.replicate 5 0) :=
  ⟨by decide, by decide, by decide, by decide,
   (reset_then_alloc_shows_old_bytes (doubling .w64) ⟨⟨[1, 2, 3, 0], 3⟩, false⟩ 2
      (by decide)).1 (by decide),
   (reset_then_alloc_shows_old_bytes (doubling .w64) ⟨⟨[1, 2, 3, 0], 3⟩, false⟩ 5
      (by decide)).2.1 ⟨⟨[1, 2, 3, 0], 0⟩, false⟩ ⟨⟨[0, 0, 0, 0, 0, 0, 0, 0], 5⟩, false⟩ 0
      (by decide) (by decide) (by decide) (by decide),
   (reset_then_alloc_shows_old_bytes (doubling .w64) ⟨⟨[1, 2, 3, 0], 3⟩, false⟩ 5
      (by decide)).2.2 rfl (by decide) (by decide) (by decide)⟩

end Karmem
